import Mathlib

/-!
# Sprinter: a same-host web crawler

A shallow embedding of `sprinter/sprinter.go` and `sprinter/node.go`.

* Go strings are Lean `String`s, Go slices are `List`s (the one place where a
  `nil` slice is distinguished from an empty one is the rendered tree `Node`).
* A Go `map[string]bool` whose values are all `true` is the list of its keys,
  without repetition; ranging over it visits the keys in an order chosen by the
  runtime, which is a parameter of the model.
* The standard library and the third-party packages (`net/url`, `net/http`,
  `strings.ToLower`, `html`, `robotstxt`) are fields of a `World`.
* Goroutines are threads of a small-step machine; a schedule is the list of
  thread numbers that take the successive steps. A section locked by `s.mu` is
  one step; the append to `cursor.child`, which no lock protects, is a read and
  a write.
-/

namespace Sprinter

/-! ## `strings.Split` and the fragment cut of `filterLinks` -/

/-- The pieces of `cs` between occurrences of the separator `sep`, as
`strings.Split` returns them for a one-character separator: always at least one
piece. -/
def splitChars (sep : Char) : List Char → List (List Char)
  | [] => [[]]
  | c :: cs =>
    if c = sep then [] :: splitChars sep cs
    else
      match splitChars sep cs with
      | [] => [[c]]
      | p :: ps => (c :: p) :: ps

/-- The Go call `strings.Split(s, "#")`. -/
def stringsSplitHash (s : String) : List String :=
  (splitChars '#' s.data).map String.mk

/-- The expression `url[0]` for `url := strings.Split(link, "#")`
(sprinter.go lines 179-180). -/
def stripFragment (link : String) : String :=
  (stringsSplitHash link).headD ""

/-- Insertion `m[k] = true` into a `map[string]bool` whose values are all
`true`, kept as the list of its keys. -/
def mapSet (m : List String) (k : String) : List String :=
  if m.contains k then m else m ++ [k]

/-- The test `_, ok := m[k]` on such a map. -/
def mapHas (m : List String) (k : String) : Bool :=
  m.contains k

/-- The map `linkSet` built by the first loop of the block at sprinter.go
lines 184-197. -/
def linkSet (links : List String) : List String :=
  links.foldl mapSet []

/-- The function `filterLinks` (sprinter.go lines 176-200): cut every link at
its first `#`, put the results in a map, and range over the map. `order` is the
order in which the runtime ranges over the keys. -/
def filterLinks (order : List String → List String) (links : List String) :
    List String :=
  let links := links.map stripFragment
  order (linkSet links)

/-! ## `node.go` -/

/-- The struct `Node` (node.go lines 9-16). A slice field is `none` when the
Go slice is `nil` and `some l` otherwise. -/
inductive Node where
  | mk (pageLinks : Option (List String)) (link : String)
      (child : Option (List Node))

/-- The elements a `for range` loop over a slice visits: none for a `nil`
slice. -/
def rangeOver {α : Type} : Option (List α) → List α
  | none => []
  | some l => l

/-- The function `NewNode` (node.go lines 19-25). -/
def NewNode (link : String) : Node :=
  .mk (some []) link (some [])

/-- The method `Node.Link` (node.go lines 44-46). -/
def Node.Link : Node → String
  | .mk _ link _ => link

/-- The field `pageLinks` of a node. -/
def Node.pageLinks : Node → Option (List String)
  | .mk pageLinks _ _ => pageLinks

/-- The field `child` of a node. -/
def Node.child : Node → Option (List Node)
  | .mk _ _ child => child

mutual
/-- The locations of all nodes of a tree, in depth-first pre-order. -/
def Node.locations : Node → List String
  | .mk _ link child => link :: Node.locationsOpt child
/-- The locations of all nodes below a child slice. -/
def Node.locationsOpt : Option (List Node) → List String
  | none => []
  | some cs => Node.locationsList cs
/-- The locations of all nodes of a list of trees. -/
def Node.locationsList : List Node → List String
  | [] => []
  | c :: cs => Node.locations c ++ Node.locationsList cs
end

mutual
/-- The nodes of a tree, in depth-first pre-order. -/
def Node.subtrees : Node → List Node
  | .mk pageLinks link child =>
    .mk pageLinks link child :: Node.subtreesOpt child
/-- The nodes below a child slice. -/
def Node.subtreesOpt : Option (List Node) → List Node
  | none => []
  | some cs => Node.subtreesList cs
/-- The nodes of a list of trees. -/
def Node.subtreesList : List Node → List Node
  | [] => []
  | c :: cs => Node.subtrees c ++ Node.subtreesList cs
end

/-- The first loop of `Node.String` (node.go lines 32-34):
`res += fmt.Sprintf("\t%s\n", page)` for each page. -/
def stringPages (res : String) : List String → String
  | [] => res
  | page :: pages => stringPages (res ++ ("\t" ++ page ++ "\n")) pages

mutual
/-- The method `Node.String` (node.go lines 29-41). -/
def Node.String : Node → String
  | .mk pageLinks link child =>
    Node.stringChildren
      (stringPages ("Visited: " ++ link ++ "\n") (rangeOver pageLinks)) child
/-- The second loop of `Node.String` (node.go lines 36-38) over the slice
`sn.child`, `nil` or not. -/
def Node.stringChildren (res : String) : Option (List Node) → String
  | none => res
  | some cs => Node.stringChildList res cs
/-- The second loop of `Node.String` over the elements of `sn.child`:
`res += child.String()` for each child. -/
def Node.stringChildList (res : String) : List Node → String
  | [] => res
  | c :: cs => Node.stringChildList (res ++ Node.String c) cs
end

/-! ## The world outside the package -/

/-- The token types of the `html` tokenizer. -/
inductive TokenType where
  | errorToken | textToken | startTagToken | endTagToken
  | selfClosingTagToken | commentToken | doctypeToken
  deriving DecidableEq

/-- An `html.Attribute`. -/
structure Attribute where
  key : String
  val : String

/-- An `html.Token`. -/
structure Token where
  type : TokenType
  data : String
  attr : List Attribute

/-- An `http.Response`: its status code, its status line, and the tokens the
`html` tokenizer reads from its body. -/
structure Response where
  statusCode : Nat
  status : String
  body : List Token

/-- The constant `http.StatusOK`. -/
def StatusOK : Nat := 200

/-- Everything `sprinter.go` calls outside its own package. -/
structure World where
  /-- The type `url.URL`. -/
  URL : Type
  /-- The function `url.Parse`. -/
  urlParse : String → Except String URL
  /-- The method `base.ResolveReference(ref)`. -/
  resolveReference : URL → URL → URL
  /-- The method `URL.String`. -/
  urlString : URL → String
  /-- The method `URL.Hostname`. -/
  urlHostname : URL → String
  /-- The function `strings.ToLower`. -/
  toLower : String → String
  /-- The function `http.Get`: a response or a transport error. -/
  httpGet : String → Except String Response
  /-- The function `robotstxt.FromResponse`, followed by
  `FindGroup("SprinterBot")`: a parse error, or the group's `Test`. -/
  robots : Response → Except String (String → Bool)
  /-- The order in which goroutine `i` ranges over the keys of a map. -/
  rangeOrder : Nat → List String → List String
  /-- Ranging over a map visits every key once. -/
  rangeOrder_perm : ∀ i m, (rangeOrder i m).Perm m

/-! ## The pure helpers of `sprinter.go` -/

/-- The function `validURL` (sprinter.go lines 203-213). -/
def validURL (w : World) (urlStr : String) : Bool :=
  if urlStr = "" then false
  else
    match w.urlParse urlStr with
    | .error _ => false
    | .ok _ => true

/-- The function `cleanURL` (sprinter.go lines 258-271). On an error the Go
function returns the empty string next to the error. -/
def cleanURL (w : World) (u base : String) : Except String String :=
  match w.urlParse u with
  | .error err => .error err
  | .ok resource =>
    match w.urlParse base with
    | .error err => .error err
    | .ok baseURL => .ok (w.urlString (w.resolveReference baseURL resource))

/-- The function `shouldCrawl` (sprinter.go lines 238-256). -/
def shouldCrawl (w : World) (next root : String) : Bool :=
  match w.urlParse next with
  | .error _ => false
  | .ok uri =>
    match w.urlParse root with
    | .error _ => false
    | .ok domain =>
      if w.urlHostname uri ≠ w.urlHostname domain then false else true

/-- The attribute loop of `parseLinks` (sprinter.go lines 224-228). -/
def parseAttrs (w : World) (links : List String) : List Attribute → List String
  | [] => links
  | attr :: attrs =>
    if w.toLower attr.key = "href" then
      parseAttrs w (links ++ [w.toLower attr.val]) attrs
    else parseAttrs w links attrs

/-- The token loop of `parseLinks` (sprinter.go lines 219-231): it ends at the
first error token. -/
def parseTokens (w : World) (links : List String) : List Token → List String
  | [] => links
  | token :: tokens =>
    match token.type with
    | .errorToken => links
    | .startTagToken | .endTagToken =>
      if "a" = w.toLower token.data then
        parseTokens w (parseAttrs w links token.attr) tokens
      else parseTokens w links tokens
    | _ => parseTokens w links tokens

/-- The function `parseLinks` (sprinter.go lines 216-233). -/
def parseLinks (w : World) (body : List Token) : List String :=
  parseTokens w [] body

/-- The function `NewSprinter` (sprinter.go lines 30-44): the root the new
sprinter holds, or an error. -/
def NewSprinter (w : World) (root : String) : Except String String :=
  if !validURL w root then .error ("url is invalid: got '" ++ root ++ "'")
  else cleanURL w root root

/-! ## The crawl: goroutines as threads of a small-step machine

Thread `0` is the goroutine that runs `Crawl`; every `go func(child string)`
of `visit` (sprinter.go lines 162-171) adds a thread. Thread `i` owns the node
it creates with `NewNode`, and a `*Node` is the number of the thread that owns
the node. One step of a thread is one access to the shared state together with
the thread-local code around it: a section locked by `s.mu` (lines 82-92 and
154-159) is one step, and the unlocked `cursor.child = append(cursor.child,
node)` of line 167 is a read step and a write step. A schedule is the list of
the threads that take the successive steps. -/

/-- The return statement by which a call of `visit` ends. -/
inductive Ret where
  /-- Line 103: `return nil`, the link was in the visited map. -/
  | visited
  /-- Line 117 or line 122: `return nodes` after a failed fetch; `nodes` is
  never assigned, so this returns `nil`. -/
  | failed
  /-- Line 173: `return root`. -/
  | node
  deriving DecidableEq

/-- Where a goroutine stands in `visit` (sprinter.go lines 96-174). -/
inductive PC where
  /-- Before the call `s.getVisited(root.Link())` of line 101. -/
  | start
  /-- Line 101 found the link not visited; before line 111. -/
  | checked
  /-- In the loop of lines 133-160, with the links still to handle and the
  slice `children` built so far. -/
  | scanning (links : List String) (children : List String)
  /-- The call `visit` returned `root` (line 173); before line 167. -/
  | returned
  /-- In line 167 the goroutine has read `cursor.child`, which was `seen`, and
  has not yet written the appended slice back. -/
  | appending (seen : List Nat)
  /-- The goroutine is finished; `ret` is the return statement by which its
  call of `visit` ended. -/
  | done (ret : Ret)
  deriving DecidableEq

/-- A goroutine and the node it owns. -/
structure Thread where
  /-- The field `link` of the node. -/
  link : String
  /-- The `cursor` of the goroutine that spawned this one; `none` for the
  goroutine of `Crawl`. -/
  parent : Option Nat
  pc : PC
  /-- The field `pageLinks` of the node. -/
  pageLinks : List String
  /-- The field `child` of the node. -/
  child : List Nat
  deriving DecidableEq

/-- The shared state of a crawl. -/
structure State where
  /-- The map `s.visited`. -/
  visited : List String
  threads : List Thread
  /-- The errors sent on `s.errChan`, oldest first. -/
  errs : List String
  /-- The arguments of the calls `http.Get(root.Link())` of line 114, oldest
  first. -/
  fetched : List String
  deriving DecidableEq

/-- The method `getVisited` (sprinter.go lines 87-92). -/
def getVisited (s : State) (u : String) : Bool :=
  mapHas s.visited u

/-- The method `setVisited` (sprinter.go lines 82-86). -/
def setVisited (s : State) (u : String) : State :=
  { s with visited := mapSet s.visited u }

/-- A send on `s.errChan`. -/
def sendErr (s : State) (err : String) : State :=
  { s with errs := s.errs ++ [err] }

/-- Overwrite thread `i`. -/
def setThread (s : State) (i : Nat) (t : Thread) : State :=
  { s with threads := s.threads.set i t }

/-- Lines 101-104 of `visit`: the test of the visited map. -/
def visitCheck (s : State) (i : Nat) (t : Thread) : State :=
  let isVisited := getVisited s t.link
  if isVisited then setThread s i { t with pc := .done .visited }
  else setThread s i { t with pc := .checked }

/-- Lines 106-131 of `visit`: the robots test, the insertion into the visited
map, the fetch, and the extraction of the links. -/
def visitFetch (w : World) (group : String → Bool) (s : State) (i : Nat)
    (t : Thread) : State :=
  let s :=
    if !group t.link then
      sendErr s ("visiting " ++ t.link ++ " violates robots.txt")
    else s
  let s := setVisited s t.link
  let s := { s with fetched := s.fetched ++ [t.link] }
  match w.httpGet t.link with
  | .error err =>
    let s := sendErr s ("unable to get " ++ t.link ++ " : " ++ err)
    setThread s i { t with pc := .done .failed }
  | .ok resp =>
    if resp.statusCode ≠ StatusOK then
      let s := sendErr s ("received " ++ resp.status ++ " for " ++ t.link)
      setThread s i { t with pc := .done .failed }
    else
      let links := parseLinks w resp.body
      let links := filterLinks (w.rangeOrder i) links
      setThread s i { t with pc := .scanning links [] }

/-- One iteration of the loop at lines 133-160 of `visit`. When `cleanURL`
fails, line 135 has assigned its empty result to `link` before line 137 formats
the error. -/
def visitLink (w : World) (root : String) (s : State) (i : Nat) (t : Thread)
    (link : String) (links children : List String) : State :=
  match cleanURL w link t.link with
  | .error err =>
    let s := sendErr s ("issue cleaning " ++ "" ++ " : " ++ err)
    setThread s i { t with pc := .scanning links children }
  | .ok link =>
    if link = t.link then
      setThread s i { t with pc := .scanning links children }
    else
      let t := { t with pageLinks := t.pageLinks ++ [link] }
      if !shouldCrawl w link root then
        setThread s i { t with pc := .scanning links children }
      else
        let visited := mapHas s.visited link
        if !visited then
          setThread s i { t with pc := .scanning links (children ++ [link]) }
        else
          setThread s i { t with pc := .scanning links children }

/-- The goroutine that `go func(child string)` starts (line 164), about to
call `s.visit(NewNode(child))`. -/
def spawn (cursor : Nat) (child : String) : Thread :=
  { link := child, parent := some cursor, pc := .start, pageLinks := [],
    child := [] }

/-- Lines 162-173 of `visit`: one goroutine per element of `children`, then
`return root`. -/
def visitSpawn (s : State) (i : Nat) (t : Thread) (children : List String) :
    State :=
  let s := setThread s i { t with pc := .returned }
  { s with threads := s.threads ++ children.map (spawn i) }

/-- The first half of line 167, `cursor.child = append(cursor.child, node)`:
the goroutine reads `cursor.child`. The line is outside every locked section,
so its read and its write are two steps. The goroutine of `Crawl` has no
cursor; its step is the return of `visit` to `Crawl` (line 77), as is the step
of a goroutine whose cursor is no thread, which does not occur. -/
def appendRead (s : State) (i : Nat) (t : Thread) : State :=
  match t.parent with
  | none => setThread s i { t with pc := .done .node }
  | some cursor =>
    match s.threads[cursor]? with
    | none => setThread s i { t with pc := .done .node }
    | some c => setThread s i { t with pc := .appending c.child }

/-- The second half of line 167, and lines 168-169: the goroutine writes the
slice it read, with its node appended, to `cursor.child`, and is finished. -/
def appendWrite (s : State) (i : Nat) (t : Thread) (seen : List Nat) : State :=
  let s := setThread s i { t with pc := .done .node }
  match t.parent with
  | none => s
  | some cursor =>
    match s.threads[cursor]? with
    | none => s
    | some c => setThread s cursor { c with child := seen ++ [i] }

/-- One step of thread `i`; nothing happens when there is no such thread or
it is finished. -/
def step (w : World) (root : String) (group : String → Bool) (s : State)
    (i : Nat) : State :=
  match s.threads[i]? with
  | none => s
  | some t =>
    match t.pc with
    | .start => visitCheck s i t
    | .checked => visitFetch w group s i t
    | .scanning (link :: links) children =>
      visitLink w root s i t link links children
    | .scanning [] children => visitSpawn s i t children
    | .returned => appendRead s i t
    | .appending seen => appendWrite s i t seen
    | .done _ => s

/-- The run of a schedule. -/
def run (w : World) (root : String) (group : String → Bool) (s : State)
    (sched : List Nat) : State :=
  sched.foldl (step w root group) s

/-- The state in which `Crawl` calls `s.visit(NewNode(s.root))` (line 77):
an empty visited map (line 54) and the goroutine of `Crawl` alone. -/
def initial (root : String) : State :=
  { visited := [],
    threads := [{ link := root, parent := none, pc := .start, pageLinks := [],
                  child := [] }],
    errs := [], fetched := [] }

/-- Whether a goroutine is finished. -/
def PC.isDone : PC → Bool
  | .done _ => true
  | _ => false

/-- Whether `s.jobs.Wait()` (line 78) returns: `visit` has returned to `Crawl`
and every goroutine has called `s.jobs.Done()`. -/
def State.drained (s : State) : Bool :=
  s.threads.all fun t => t.pc.isDone

/-- The tree below the node of thread `i`, followed to depth `fuel`. -/
def toNode (threads : List Thread) : Nat → Nat → Node
  | 0, i =>
    match threads[i]? with
    | none => NewNode ""
    | some t => .mk (some t.pageLinks) t.link (some [])
  | fuel + 1, i =>
    match threads[i]? with
    | none => NewNode ""
    | some t =>
      .mk (some t.pageLinks) t.link (some (t.child.map (toNode threads fuel)))

/-- The value `root` that `Crawl` returns (line 79): `nil` or the tree of
thread `0`. -/
def State.result (s : State) : Option Node :=
  match s.threads[0]? with
  | none => none
  | some t =>
    match t.pc with
    | .done .node => some (toNode s.threads s.threads.length 0)
    | _ => none

/-- The state of the machine when the policy group is `group` and the threads
have taken the steps of `sched`. -/
def crawlState (w : World) (root : String) (group : String → Bool)
    (sched : List Nat) : State :=
  run w root group (initial root) sched

/-- Lines 77-79 of `Crawl`, once `s.group` is `group`, under the schedule
`sched`. `none`: the schedule ends before `s.jobs.Wait()` returns.
`some none`: `Crawl` returns `nil`. `some (some n)`: `Crawl` returns the
tree `n`. -/
def crawlWith (w : World) (root : String) (group : String → Bool)
    (sched : List Nat) : Option (Option Node) :=
  let s := crawlState w root group sched
  if s.drained then some s.result else none

/-- The method `Crawl` (sprinter.go lines 52-80) under the schedule `sched`:
it returns `nil` when `robots.txt` cannot be fetched or parsed. The results are
those of `crawlWith`. -/
def Crawl (w : World) (root : String) (sched : List Nat) :
    Option (Option Node) :=
  match w.httpGet (root ++ "/robots.txt") with
  | .error _ => some none
  | .ok resp =>
    match w.robots resp with
    | .error _ => some none
    | .ok group => crawlWith w root group sched

/-! ## What holds of the threads in every state of a crawl -/

/-- Whether the fetch of `u` succeeds: `http.Get` returns a response (line
115) and its status is `http.StatusOK` (line 120). -/
def fetchOK (w : World) (u : String) : Bool :=
  match w.httpGet u with
  | .error _ => false
  | .ok resp => resp.statusCode == StatusOK

/-- Whether the goroutine is past the loop of lines 162-171, in which it starts
the goroutines of its children. -/
def PC.spawned : PC → Bool
  | .returned => true
  | .appending _ => true
  | .done .node => true
  | _ => false

/-- The goroutines started with cursor `cursor`, oldest first. -/
def tasksOf (threads : List Thread) (cursor : Nat) : List Thread :=
  threads.filter fun t => t.parent == some cursor

/-- The links given to the goroutines started with cursor `cursor`, oldest
first. -/
def childLinks (threads : List Thread) (cursor : Nat) : List String :=
  (tasksOf threads cursor).map fun t => t.link

/-- The entries of `pageLinks` that are in scope. -/
def inScope (w : World) (root : String) (pageLinks : List String) : List String :=
  pageLinks.filter fun link => shouldCrawl w link root

/-- What holds of one thread by itself. -/
def Local (w : World) (root : String) (t : Thread) : Prop :=
  (t.parent ≠ none → shouldCrawl w t.link root = true) ∧
  t.link ∉ t.pageLinks ∧
  match t.pc with
  | .done .failed => fetchOK w t.link = false
  | .scanning _ children =>
    fetchOK w t.link = true ∧
    (∀ c ∈ children, c ≠ t.link ∧ shouldCrawl w c root = true) ∧
    children.Sublist (inScope w root t.pageLinks)
  | .returned => fetchOK w t.link = true
  | .appending _ => fetchOK w t.link = true
  | .done .node => fetchOK w t.link = true
  | _ => True

/-- Thread `j` was started with cursor `cursor`, its `visit` returned a node,
and the thread has executed line 167. -/
def NodeOf (threads : List Thread) (cursor j : Nat) : Prop :=
  ∃ u, threads[j]? = some u ∧ u.parent = some cursor ∧ u.pc = .done .node

/-- What holds in every state of a crawl of `root` of the links, the cursors
and the positions of the threads. -/
structure Shape (w : World) (root : String) (threads : List Thread) : Prop where
  /-- Thread `0` is the goroutine of `Crawl`, and its node is the root. -/
  main : ∃ t, threads[0]? = some t ∧ t.parent = none ∧ t.link = root
  /-- Every other thread has a cursor. -/
  orphan : ∀ (j : Nat) (t : Thread), threads[j]? = some t → t.parent = none → j = 0
  loc : ∀ (j : Nat) (t : Thread), threads[j]? = some t → Local w root t
  /-- The cursor of a thread is an older thread that is past its spawning loop
  and has another link. -/
  cursor : ∀ (j : Nat) (t : Thread) (p : Nat), threads[j]? = some t →
    t.parent = some p →
    p < j ∧ ∃ tp, threads[p]? = some tp ∧ tp.pc.spawned = true ∧ t.link ≠ tp.link
  /-- The goroutines started with a node as cursor got in-scope entries of its
  `pageLinks`, one goroutine for one entry, and none before the spawning
  loop. -/
  tasks : ∀ (i : Nat) (t : Thread), threads[i]? = some t →
    (childLinks threads i).Sublist (inScope w root t.pageLinks) ∧
    (t.pc.spawned = false → childLinks threads i = [])

/-- What holds of the threads of a crawl of `root` in every state. -/
structure Inv (w : World) (root : String) (threads : List Thread) : Prop where
  shape : Shape w root threads
  /-- The field `child` of a node holds only threads started with this node as
  cursor whose `visit` returned a node. -/
  child : ∀ (i : Nat) (t : Thread) (j : Nat), threads[i]? = some t →
    j ∈ t.child → NodeOf threads i j
  nodup : ∀ (i : Nat) (t : Thread), threads[i]? = some t → t.child.Nodup
  /-- So does the slice that a goroutine has read in line 167. -/
  seen : ∀ (j : Nat) (u : Thread) (seen : List Nat) (p : Nat),
    threads[j]? = some u → u.pc = .appending seen → u.parent = some p →
    seen.Nodup ∧ ∀ k ∈ seen, NodeOf threads p k

/-! ## The states of two small crawls -/

/-- The states of the crawl of a root page without links, in the order in which
the goroutine of `Crawl` goes through them. -/
def noLinkStates (root : String) : List State :=
  [ ⟨[], [⟨root, none, .start, [], []⟩], [], []⟩,
    ⟨[], [⟨root, none, .checked, [], []⟩], [], []⟩,
    ⟨[root], [⟨root, none, .scanning [] [], [], []⟩], [], [root]⟩,
    ⟨[root], [⟨root, none, .returned, [], []⟩], [], [root]⟩,
    ⟨[root], [⟨root, none, .done .node, [], []⟩], [], [root]⟩ ]

/-- The states of the crawl of a root page whose only link resolves to the
in-scope page `next`, once the goroutine for `next` is started: the goroutine
of `Crawl` is at `pc`, and there is one state for each position of the
goroutine for `next`. -/
def oneLinkGrid (root next : String) (pc : PC) : List State :=
  [ ⟨[root], [⟨root, none, pc, [next], []⟩, ⟨next, some 0, .start, [], []⟩], [],
      [root]⟩,
    ⟨[root], [⟨root, none, pc, [next], []⟩, ⟨next, some 0, .checked, [], []⟩], [],
      [root]⟩,
    ⟨[root, next],
      [⟨root, none, pc, [next], []⟩, ⟨next, some 0, .scanning [] [], [], []⟩], [],
      [root, next]⟩,
    ⟨[root, next],
      [⟨root, none, pc, [next], []⟩, ⟨next, some 0, .returned, [], []⟩], [],
      [root, next]⟩,
    ⟨[root, next],
      [⟨root, none, pc, [next], []⟩, ⟨next, some 0, .appending [], [], []⟩], [],
      [root, next]⟩,
    ⟨[root, next],
      [⟨root, none, pc, [next], [1]⟩, ⟨next, some 0, .done .node, [], []⟩], [],
      [root, next]⟩ ]

/-- The states of the crawl of a root page whose only link `href` resolves to
the in-scope page `next`, which has no links. -/
def oneLinkStates (root href next : String) : List State :=
  [ ⟨[], [⟨root, none, .start, [], []⟩], [], []⟩,
    ⟨[], [⟨root, none, .checked, [], []⟩], [], []⟩,
    ⟨[root], [⟨root, none, .scanning [href] [], [], []⟩], [], [root]⟩,
    ⟨[root], [⟨root, none, .scanning [] [next], [next], []⟩], [], [root]⟩ ] ++
  oneLinkGrid root next .returned ++ oneLinkGrid root next (.done .node)

/-! ## A concrete world

A site served over plain `http`, with a small model of `net/url` that agrees
with the Go package on the URLs used below: absolute `http://host/path` URLs,
references that are an absolute path, and the empty reference. -/

/-- The parts of a `url.URL` the small model keeps. -/
structure MiniURL where
  scheme : String
  host : String
  path : String

/-- The small `url.Parse`: `http://host/path` is split at the first `/` after
the scheme; anything else is a reference that is only a path. -/
def miniParse (s : String) : Except String MiniURL :=
  if "http://".data.isPrefixOf s.data then
    let rest := s.data.drop 7
    .ok { scheme := "http", host := String.mk (rest.takeWhile (· ≠ '/')),
          path := String.mk (rest.dropWhile (· ≠ '/')) }
  else .ok { scheme := "", host := "", path := s }

/-- The directory of a path: the path up to its last `/`. -/
def miniDir (path : List Char) : List Char :=
  (path.reverse.dropWhile (· ≠ '/')).reverse

/-- The small `ResolveReference`: a reference with a scheme stands for itself,
the empty reference for the base, an absolute path replaces the path of the
base, and any other path is put into the directory of the base. -/
def miniResolve (base ref : MiniURL) : MiniURL :=
  if ref.scheme ≠ "" then ref
  else if ref.path = "" then base
  else if "/".data.isPrefixOf ref.path.data then { base with path := ref.path }
  else { base with path := String.mk (miniDir base.path.data ++ ref.path.data) }

/-- The small `URL.String`. -/
def miniString (u : MiniURL) : String :=
  if u.scheme = "" then u.path else u.scheme ++ "://" ++ u.host ++ u.path

/-- The small `URL.Hostname`: the host without its port. -/
def miniHostname (u : MiniURL) : String :=
  String.mk (u.host.data.takeWhile (· ≠ ':'))

/-- A start tag `<a href="...">`. -/
def anchor (href : String) : Token :=
  { type := .startTagToken, data := "a", attr := [{ key := "href", val := href }] }

/-- A response `200 OK` whose body holds one anchor for each of `hrefs`. -/
def page (hrefs : List String) : Response :=
  { statusCode := 200, status := "200 OK", body := hrefs.map anchor }

/-- A response `404 Not Found`. -/
def notFound : Response :=
  { statusCode := 404, status := "404 Not Found", body := [] }

/-- A response `500 Internal Server Error`. -/
def serverError : Response :=
  { statusCode := 500, status := "500 Internal Server Error", body := [] }

/-- The world of a site: `site` answers the requests, `group` is the robots
policy, and maps are ranged over in insertion order. -/
def miniWorld (site : String → Except String Response) (group : String → Bool) :
    World :=
  { URL := MiniURL
    urlParse := miniParse
    resolveReference := miniResolve
    urlString := miniString
    urlHostname := miniHostname
    toLower := fun s => String.mk (s.data.map Char.toLower)
    httpGet := site
    robots := fun _ => .ok group
    rangeOrder := fun _ m => m
    rangeOrder_perm := fun _ m => List.Perm.refl m }

/-- The policy that allows every URL. -/
def allowAll : String → Bool := fun _ => true

/-- The policy that disallows every URL. -/
def denyAll : String → Bool := fun _ => false

/-- A site whose root page holds one anchor, to a page without anchors, as in
the third fixture of `TestCrawler`. -/
def siteOneLink : String → Except String Response := fun u =>
  if u = "http://h/" then .ok (page ["http://h/p"])
  else if u = "http://h/p" then .ok (page [])
  else .ok notFound

/-- A site whose root page links to a page on another host and to the page
`/p` on its own host. -/
def siteOffHost : String → Except String Response := fun u =>
  if u = "http://h/" then .ok (page ["http://other/x", "http://h/p"])
  else if u = "http://h/p" then .ok (page [])
  else if u = "http://other/x" then .ok (page ["http://other/y"])
  else .ok notFound

/-- A site whose root page holds no anchor, as in the first fixture of
`TestCrawler`. -/
def siteNoLink : String → Except String Response := fun u =>
  if u = "http://h/" then .ok (page []) else .ok notFound

/-- A site whose root page links to itself by a fragment only. -/
def siteFragment : String → Except String Response := fun u =>
  if u = "http://h/" then .ok (page ["#frag"]) else .ok notFound

/-- A site whose root page answers `500 Internal Server Error`. -/
def siteDown : String → Except String Response := fun u =>
  if u = "http://h/" then .ok serverError else .ok notFound

/-- A site whose root page names the page `/p` twice: by its absolute path and
by its absolute URL. -/
def siteTwoNames : String → Except String Response := fun u =>
  if u = "http://h/" then .ok (page ["/p", "http://h/p"])
  else if u = "http://h/p" then .ok (page [])
  else .ok notFound

/-- A site whose root page links to the pages `/a` and `/b`, which have no
links. -/
def siteTwoLinks : String → Except String Response := fun u =>
  if u = "http://h/" then .ok (page ["http://h/a", "http://h/b"])
  else if u = "http://h/a" then .ok (page [])
  else if u = "http://h/b" then .ok (page [])
  else .ok notFound

/-- A site whose root page links to the pages `/a` and `/b`, which both link to
the page `/c`. -/
def siteDiamond : String → Except String Response := fun u =>
  if u = "http://h/" then .ok (page ["http://h/a", "http://h/b"])
  else if u = "http://h/a" then .ok (page ["http://h/c"])
  else if u = "http://h/b" then .ok (page ["http://h/c"])
  else if u = "http://h/c" then .ok (page [])
  else .ok notFound

/-! # Properties -/

/-! ## `filterLinks` -/

theorem splitChars_ne_nil (sep : Char) (cs : List Char) :
    splitChars sep cs ≠ [] := by
  induction cs with
  | nil => simp [splitChars]
  | cons c cs ih =>
    unfold splitChars
    split
    · simp
    · split <;> simp

theorem splitChars_head (sep : Char) (cs : List Char) :
    (splitChars sep cs).headD [] = cs.takeWhile (· ≠ sep) := by
  induction cs with
  | nil => simp [splitChars]
  | cons c cs ih =>
    unfold splitChars
    by_cases h : c = sep
    · simp [h]
    · simp only [h, if_false]
      cases hs : splitChars sep cs with
      | nil => exact absurd hs (splitChars_ne_nil sep cs)
      | cons p ps =>
        rw [hs] at ih
        simp only [List.headD_cons] at ih
        simp [List.takeWhile_cons, h, ih]

/-- The piece `url[0]` is the link up to its first `#`. -/
theorem stripFragment_eq (link : String) :
    stripFragment link = String.mk (link.data.takeWhile (· ≠ '#')) := by
  unfold stripFragment stringsSplitHash
  have h := splitChars_head '#' link.data
  cases hs : splitChars '#' link.data with
  | nil => exact absurd hs (splitChars_ne_nil _ _)
  | cons p ps =>
    rw [hs] at h
    simp only [List.headD_cons] at h
    simp [h]

theorem mem_mapSet (m : List String) (k x : String) :
    x ∈ mapSet m k ↔ x ∈ m ∨ x = k := by
  unfold mapSet
  by_cases h : m.contains k = true
  · rw [if_pos h]
    constructor
    · exact Or.inl
    · rintro (hx | hx)
      · exact hx
      · subst hx; simpa using h
  · rw [if_neg h]; simp

theorem nodup_mapSet (m : List String) (k : String) (hm : m.Nodup) :
    (mapSet m k).Nodup := by
  unfold mapSet
  by_cases h : m.contains k = true
  · rw [if_pos h]; exact hm
  · rw [if_neg h]
    have hk : k ∉ m := by simpa using h
    exact List.nodup_append.mpr ⟨hm, List.nodup_singleton k, by
      intro a ha hb
      rw [List.mem_singleton] at hb
      exact hk (hb ▸ ha)⟩

theorem length_mapSet_le (m : List String) (k : String) :
    (mapSet m k).length ≤ m.length + 1 := by
  unfold mapSet
  split <;> simp

theorem foldl_mapSet (links acc : List String) (hacc : acc.Nodup) :
    (links.foldl mapSet acc).Nodup ∧
    (∀ x, x ∈ links.foldl mapSet acc ↔ x ∈ acc ∨ x ∈ links) ∧
    (links.foldl mapSet acc).length ≤ acc.length + links.length := by
  induction links generalizing acc with
  | nil => simp [hacc]
  | cons l ls ih =>
    obtain ⟨h1, h2, h3⟩ := ih (mapSet acc l) (nodup_mapSet acc l hacc)
    refine ⟨h1, ?_, ?_⟩
    · intro x
      rw [List.foldl_cons, h2, mem_mapSet, List.mem_cons]
      tauto
    · have := length_mapSet_le acc l
      simp only [List.foldl_cons, List.length_cons]
      omega

theorem linkSet_spec (links : List String) :
    (linkSet links).Nodup ∧ (∀ x, x ∈ linkSet links ↔ x ∈ links) ∧
    (linkSet links).length ≤ links.length := by
  obtain ⟨h1, h2, h3⟩ := foldl_mapSet links [] List.nodup_nil
  exact ⟨h1, fun x => by simpa using h2 x, by simpa using h3⟩

theorem filterLinks_perm (w : World) (i : Nat) (links : List String) :
    (filterLinks (w.rangeOrder i) links).Perm (linkSet (links.map stripFragment)) :=
  w.rangeOrder_perm i _

/-- C7. For every list of raw hrefs and every order in which the runtime ranges
over the map, `filterLinks` returns a list without duplicates whose elements
are exactly the inputs cut at their first `#`; no output contains `#`, the
output is not longer than the input, and the hrefs `/p` and `/p#section`
together give the single entry `/p`. -/
theorem filterLinks_unique_prefixes (w : World) (i : Nat) (links : List String) :
    (filterLinks (w.rangeOrder i) links).Nodup ∧
    (∀ x, x ∈ filterLinks (w.rangeOrder i) links ↔
      ∃ l ∈ links, x = String.mk (l.data.takeWhile (· ≠ '#'))) ∧
    (∀ x ∈ filterLinks (w.rangeOrder i) links, '#' ∉ x.data) ∧
    (filterLinks (w.rangeOrder i) links).length ≤ links.length ∧
    filterLinks (w.rangeOrder i) ["/p", "/p#section"] = ["/p"] := by
  have hp := filterLinks_perm w i links
  obtain ⟨h1, h2, h3⟩ := linkSet_spec (links.map stripFragment)
  have hmem : ∀ x, x ∈ filterLinks (w.rangeOrder i) links ↔
      ∃ l ∈ links, x = String.mk (l.data.takeWhile (· ≠ '#')) := by
    intro x
    rw [hp.mem_iff, h2, List.mem_map]
    constructor
    · rintro ⟨l, hl, rfl⟩
      exact ⟨l, hl, stripFragment_eq l⟩
    · rintro ⟨l, hl, rfl⟩
      exact ⟨l, hl, stripFragment_eq l⟩
  refine ⟨hp.nodup_iff.mpr h1, hmem, ?_, ?_, ?_⟩
  · intro x hx hmemx
    obtain ⟨l, _, rfl⟩ := (hmem x).mp hx
    have := List.mem_takeWhile_imp hmemx
    simp at this
  · rw [hp.length_eq]
    simpa using h3
  · have hq := filterLinks_perm w i ["/p", "/p#section"]
    have hs : linkSet (["/p", "/p#section"].map stripFragment) = ["/p"] := by decide
    rw [hs] at hq
    exact List.perm_singleton.mp hq

/-! ## `Node.String` -/

theorem foldl_append_eq (l : List String) (acc : String) :
    l.foldl (fun r s => r ++ s) acc = acc ++ String.join l := by
  induction l generalizing acc with
  | nil => simp [String.join]
  | cons a l ih =>
    rw [List.foldl_cons, ih]
    unfold String.join
    rw [List.foldl_cons, ih ("" ++ a), String.empty_append, String.append_assoc]
    rfl

theorem join_nil : String.join [] = "" := rfl

theorem join_cons (a : String) (l : List String) :
    String.join (a :: l) = a ++ String.join l := by
  unfold String.join
  rw [List.foldl_cons, foldl_append_eq, String.empty_append]
  rfl

theorem stringPages_eq (res : String) (pages : List String) :
    stringPages res pages =
      res ++ String.join (pages.map fun page => "\t" ++ page ++ "\n") := by
  induction pages generalizing res with
  | nil => simp [stringPages, join_nil]
  | cons page pages ih =>
    rw [stringPages, ih, List.map_cons, join_cons, String.append_assoc]

theorem stringChildList_eq (res : String) (cs : List Node) :
    Node.stringChildList res cs = res ++ String.join (cs.map Node.String) := by
  induction cs generalizing res with
  | nil => simp [Node.stringChildList, join_nil]
  | cons c cs ih =>
    rw [Node.stringChildList, ih, List.map_cons, join_cons, String.append_assoc]

theorem stringChildren_eq (res : String) (child : Option (List Node)) :
    Node.stringChildren res child =
      res ++ String.join ((rangeOver child).map Node.String) := by
  cases child with
  | none => simp [Node.stringChildren, rangeOver, join_nil]
  | some cs => simp [Node.stringChildren, rangeOver, stringChildList_eq]

theorem nodeString_eq (pageLinks : Option (List String)) (link : String)
    (child : Option (List Node)) :
    Node.String (.mk pageLinks link child) =
      "Visited: " ++ link ++ "\n" ++
        String.join ((rangeOver pageLinks).map fun page => "\t" ++ page ++ "\n") ++
        String.join ((rangeOver child).map Node.String) := by
  rw [Node.String, stringChildren_eq, stringPages_eq]

/-- C9. `Node.String` is the depth-first pre-order rendering: the line
`Visited: <location>`, one line with a tab for each `pageLinks` entry in order,
then the rendering of each child in order. A `nil` slice renders as an empty
one, two nodes with the same location, the same `pageLinks` entries and equally
rendered children render identically, and so the tree expected by the third
fixture of `TestCrawler`, whose child has a `nil` child slice, renders as the
tree built with `NewNode` does. -/
theorem nodeString_preorder (pageLinks : Option (List String)) (link : String)
    (child : Option (List Node)) :
    Node.String (.mk pageLinks link child) =
      "Visited: " ++ link ++ "\n" ++
        String.join ((rangeOver pageLinks).map fun page => "\t" ++ page ++ "\n") ++
        String.join ((rangeOver child).map Node.String) ∧
    Node.String (.mk none link none) = "Visited: " ++ link ++ "\n" ∧
    Node.String (.mk none link child) = Node.String (.mk (some []) link child) ∧
    Node.String (.mk pageLinks link none) =
      Node.String (.mk pageLinks link (some [])) ∧
    (∀ (pageLinks' : Option (List String)) (child' : Option (List Node)),
      rangeOver pageLinks' = rangeOver pageLinks →
      (rangeOver child').map Node.String = (rangeOver child).map Node.String →
      Node.String (.mk pageLinks' link child') =
        Node.String (.mk pageLinks link child)) ∧
    Node.String
        (.mk (some ["http://127.0.0.1:8080/0"]) "http://127.0.0.1:8080/2"
          (some [.mk (some []) "http://127.0.0.1:8080/0" none])) =
      Node.String
        (.mk (some ["http://127.0.0.1:8080/0"]) "http://127.0.0.1:8080/2"
          (some [NewNode "http://127.0.0.1:8080/0"])) := by
  refine ⟨nodeString_eq _ _ _, ?_, ?_, ?_, ?_, ?_⟩
  · rw [nodeString_eq]
    simp [rangeOver, join_nil]
  · rw [nodeString_eq, nodeString_eq]
    rfl
  · rw [nodeString_eq, nodeString_eq]
    rfl
  · intro pageLinks' child' h1 h2
    rw [nodeString_eq, nodeString_eq, h1, h2]
  · rfl

/-- The rendering of the tree that the third fixture of `TestCrawler`
expects. -/
theorem nodeString_preorder_witness :
    Node.String
        (.mk (some ["http://127.0.0.1:8080/0"]) "http://127.0.0.1:8080/2"
          (some [.mk (some []) "http://127.0.0.1:8080/0" none])) =
      "Visited: http://127.0.0.1:8080/2\n\thttp://127.0.0.1:8080/0\n" ++
        "Visited: http://127.0.0.1:8080/0\n" ∧
    Node.String (.mk (some []) "http://127.0.0.1:8080/0" none) =
      Node.String (NewNode "http://127.0.0.1:8080/0") :=
  ⟨by decide,
   (nodeString_preorder (some []) "http://127.0.0.1:8080/0" (some [])).2.2.2.2.1
     (some []) none rfl rfl⟩

/-! ## The robots policy -/

theorem step_robots (w : World) (root : String) (g₁ g₂ : String → Bool)
    (s₁ s₂ : State) (i : Nat) (hv : s₁.visited = s₂.visited)
    (ht : s₁.threads = s₂.threads) (hf : s₁.fetched = s₂.fetched) :
    (step w root g₁ s₁ i).visited = (step w root g₂ s₂ i).visited ∧
    (step w root g₁ s₁ i).threads = (step w root g₂ s₂ i).threads ∧
    (step w root g₁ s₁ i).fetched = (step w root g₂ s₂ i).fetched := by
  obtain ⟨v₁, t₁, e₁, f₁⟩ := s₁
  obtain ⟨v₂, t₂, e₂, f₂⟩ := s₂
  simp only at hv ht hf
  subst hv ht hf
  unfold step
  simp only
  cases t₁[i]? with
  | none => simp
  | some t =>
    simp only
    cases t.pc with
    | start => simp only [visitCheck, getVisited, setThread]; split <;> simp
    | checked =>
      simp only [visitFetch, setVisited, sendErr, setThread]
      cases w.httpGet t.link with
      | error err => cases g₁ t.link <;> cases g₂ t.link <;> simp
      | ok resp =>
        cases g₁ t.link <;> cases g₂ t.link <;> simp <;> split <;> simp
    | scanning links children =>
      cases links with
      | nil => simp [visitSpawn, setThread]
      | cons link links =>
        simp only [visitLink, sendErr, setThread]
        cases cleanURL w link t.link with
        | error err => simp
        | ok l =>
          simp only
          by_cases h1 : l = t.link
          · simp [h1]
          · cases shouldCrawl w l root <;> cases mapHas v₁ l <;> simp [h1]
    | returned =>
      simp only [appendRead, setThread]
      cases t.parent with
      | none => simp
      | some cursor => simp only; split <;> simp
    | appending seen =>
      simp only [appendWrite, setThread]
      cases t.parent with
      | none => simp
      | some cursor => simp only; split <;> simp
    | done r => simp

theorem run_robots (w : World) (root : String) (g₁ g₂ : String → Bool)
    (sched : List Nat) (s₁ s₂ : State) (hv : s₁.visited = s₂.visited)
    (ht : s₁.threads = s₂.threads) (hf : s₁.fetched = s₂.fetched) :
    (run w root g₁ s₁ sched).visited = (run w root g₂ s₂ sched).visited ∧
    (run w root g₁ s₁ sched).threads = (run w root g₂ s₂ sched).threads ∧
    (run w root g₁ s₁ sched).fetched = (run w root g₂ s₂ sched).fetched := by
  induction sched generalizing s₁ s₂ with
  | nil => exact ⟨hv, ht, hf⟩
  | cons i sched ih =>
    obtain ⟨h1, h2, h3⟩ := step_robots w root g₁ g₂ s₁ s₂ i hv ht hf
    exact ih _ _ h1 h2 h3

theorem crawlWith_robots (w : World) (root : String) (g₁ g₂ : String → Bool)
    (sched : List Nat) : crawlWith w root g₁ sched = crawlWith w root g₂ sched := by
  obtain ⟨_, h2, _⟩ :=
    run_robots w root g₁ g₂ sched (initial root) (initial root) rfl rfl rfl
  simp only [crawlWith, State.drained, State.result]
  unfold crawlState
  rw [h2]

/-- C8. A URL that the robots policy disallows gets an error on the error sink
and is then handled exactly as an allowed one; so for any two policies, the
same world and the same schedule, the visited map, the threads with their
nodes, the fetches and the tree that `Crawl` returns are the same. -/
theorem robots_policy_changes_errors_only (w : World) (root : String)
    (g₁ g₂ : String → Bool) (sched : List Nat) :
    (∀ (s : State) (i : Nat) (t : Thread), g₁ t.link = false →
      visitFetch w g₁ s i t =
        visitFetch w allowAll
          (sendErr s ("visiting " ++ t.link ++ " violates robots.txt")) i t) ∧
    (crawlState w root g₁ sched).visited = (crawlState w root g₂ sched).visited ∧
    (crawlState w root g₁ sched).threads = (crawlState w root g₂ sched).threads ∧
    (crawlState w root g₁ sched).fetched = (crawlState w root g₂ sched).fetched ∧
    crawlWith w root g₁ sched = crawlWith w root g₂ sched := by
  obtain ⟨h1, h2, h3⟩ :=
    run_robots w root g₁ g₂ sched (initial root) (initial root) rfl rfl rfl
  refine ⟨?_, h1, h2, h3, ?_⟩
  · intro s i t hg
    simp [visitFetch, hg, allowAll]
  · exact crawlWith_robots w root g₁ g₂ sched

/-- The site with one link under the policy that disallows everything: the
same tree and the same fetches as under the policy that allows everything,
and one error for each URL. -/
theorem robots_policy_changes_errors_only_witness :
    crawlWith (miniWorld siteOneLink denyAll) "http://h/" denyAll
        [0, 0, 0, 0, 0, 1, 1, 1, 1, 1] =
      crawlWith (miniWorld siteOneLink denyAll) "http://h/" allowAll
        [0, 0, 0, 0, 0, 1, 1, 1, 1, 1] ∧
    (crawlState (miniWorld siteOneLink denyAll) "http://h/" denyAll
        [0, 0, 0, 0, 0, 1, 1, 1, 1, 1]).fetched = ["http://h/", "http://h/p"] ∧
    (crawlState (miniWorld siteOneLink denyAll) "http://h/" denyAll
        [0, 0, 0, 0, 0, 1, 1, 1, 1, 1]).errs =
      ["visiting http://h/ violates robots.txt",
       "visiting http://h/p violates robots.txt"] ∧
    (crawlState (miniWorld siteOneLink denyAll) "http://h/" allowAll
        [0, 0, 0, 0, 0, 1, 1, 1, 1, 1]).errs = [] :=
  ⟨(robots_policy_changes_errors_only (miniWorld siteOneLink denyAll) "http://h/"
      denyAll allowAll [0, 0, 0, 0, 0, 1, 1, 1, 1, 1]).2.2.2.2,
   by decide, by decide, by decide⟩

/-! ## The invariant of the crawl -/

theorem childLinks_set (threads : List Thread) (i p : Nat) (t t' : Thread)
    (hi : threads[i]? = some t) (hl : t'.link = t.link)
    (hp : t'.parent = t.parent) :
    childLinks (threads.set i t') p = childLinks threads p := by
  induction threads generalizing i with
  | nil => simp
  | cons a as ih =>
    cases i with
    | zero =>
      simp only [List.getElem?_cons_zero, Option.some.injEq] at hi
      subst hi
      simp [childLinks, tasksOf, List.filter_cons, hp, hl]
      split <;> simp [hl]
    | succ i =>
      simp only [List.getElem?_cons_succ] at hi
      have := ih i hi
      simp only [childLinks, tasksOf, List.set_cons_succ, List.filter_cons] at this ⊢
      split <;> simp [this]

theorem childLinks_append (threads new : List Thread) (p : Nat) :
    childLinks (threads ++ new) p = childLinks threads p ++ childLinks new p := by
  simp [childLinks, tasksOf]

theorem childLinks_spawn_self (i : Nat) (children : List String) :
    childLinks (children.map (spawn i)) i = children := by
  induction children with
  | nil => rfl
  | cons c cs ih =>
    simp only [childLinks, tasksOf] at ih ⊢
    simp [spawn, List.filter_cons, ih]

theorem childLinks_spawn_other (i p : Nat) (children : List String) (h : i ≠ p) :
    childLinks (children.map (spawn i)) p = [] := by
  induction children with
  | nil => rfl
  | cons c cs ih =>
    simp only [childLinks, tasksOf] at ih ⊢
    simp [spawn, List.filter_cons, ih, h]

theorem inv_initial (w : World) (root : String) :
    Inv w root (initial root).threads := by
  have single : ∀ (j : Nat) (t : Thread), (initial root).threads[j]? = some t →
      j = 0 ∧ t = { link := root, parent := none, pc := .start, pageLinks := [],
                    child := [] } := by
    intro j t hj
    cases j with
    | zero =>
      simp only [initial, List.getElem?_cons_zero, Option.some.injEq] at hj
      exact ⟨rfl, hj.symm⟩
    | succ j => simp [initial] at hj
  refine ⟨⟨⟨_, rfl, rfl, rfl⟩, ?_, ?_, ?_, ?_⟩, ?_, ?_, ?_⟩
  · intro j t hj _
    exact (single j t hj).1
  · intro j t hj
    obtain ⟨_, rfl⟩ := single j t hj
    simp [Local]
  · intro j t p hj hp
    obtain ⟨_, rfl⟩ := single j t hj
    simp at hp
  · intro i t _
    simp [childLinks, tasksOf, initial]
  · intro i t j hi hj
    obtain ⟨_, rfl⟩ := single i t hi
    simp at hj
  · intro i t hi
    obtain ⟨_, rfl⟩ := single i t hi
    simp
  · intro j u seen p hj hpc
    obtain ⟨_, rfl⟩ := single j u hj
    simp at hpc

theorem lookup_set {threads : List Thread} {i : Nat} {t : Thread} (t' : Thread)
    (hi : threads[i]? = some t) (j : Nat) :
    (threads.set i t')[j]? = if j = i then some t' else threads[j]? := by
  have hlt : i < threads.length := (List.getElem?_eq_some.mp hi).1
  rw [List.getElem?_set]
  by_cases h : i = j
  · subst h; simp [hlt]
  · have h' : ¬ j = i := fun e => h e.symm
    simp [h, h']

theorem lookup_set_old {threads : List Thread} {i : Nat} {t : Thread}
    (t' : Thread) (hi : threads[i]? = some t) {j : Nat} {u : Thread}
    (hj : (threads.set i t')[j]? = some u) :
    (j = i ∧ u = t' ∧ threads[j]? = some t) ∨ (j ≠ i ∧ threads[j]? = some u) := by
  rw [lookup_set t' hi] at hj
  by_cases h : j = i
  · left
    rw [if_pos h] at hj
    exact ⟨h, (Option.some.inj hj).symm, h ▸ hi⟩
  · right
    rw [if_neg h] at hj
    exact ⟨h, hj⟩

theorem spawned_false_ne_node {pc : PC} (h : pc.spawned = false) :
    pc ≠ .done .node := by
  intro e
  subst e
  simp [PC.spawned] at h

/-- Overwriting a thread keeps the shape when the link and the cursor stay,
and, for a thread past its spawning loop, the position stays past it and
`pageLinks` stays. -/
theorem shape_set (w : World) (root : String) (threads : List Thread) (i : Nat)
    (t t' : Thread) (hinv : Shape w root threads) (hi : threads[i]? = some t)
    (hl : t'.link = t.link) (hp : t'.parent = t.parent) (hloc : Local w root t')
    (hs : t.pc.spawned = true →
      t'.pc.spawned = true ∧ t'.pageLinks = t.pageLinks) :
    Shape w root (threads.set i t') := by
  refine ⟨?_, ?_, ?_, ?_, ?_⟩
  · obtain ⟨t0, h0, hp0, hl0⟩ := hinv.main
    rw [lookup_set t' hi]
    by_cases h : 0 = i
    · subst h
      rw [hi] at h0
      cases h0
      exact ⟨t', by simp, hp.trans hp0, hl.trans hl0⟩
    · exact ⟨t0, by rw [if_neg h]; exact h0, hp0, hl0⟩
  · intro j u hj hpar
    rcases lookup_set_old t' hi hj with ⟨rfl, rfl, hold⟩ | ⟨_, hold⟩
    · exact hinv.orphan _ _ hold (hp ▸ hpar)
    · exact hinv.orphan _ _ hold hpar
  · intro j u hj
    rcases lookup_set_old t' hi hj with ⟨rfl, rfl, _⟩ | ⟨_, hold⟩
    · exact hloc
    · exact hinv.loc _ _ hold
  · intro j u p hj hpar
    have key : ∀ u₀ : Thread, threads[j]? = some u₀ → u₀.parent = some p →
        u₀.link = u.link →
        p < j ∧ ∃ tp, (threads.set i t')[p]? = some tp ∧ tp.pc.spawned = true ∧
          u.link ≠ tp.link := by
      intro u₀ h₀ hp₀ hl₀
      obtain ⟨hlt, tp, htp, hsp, hne⟩ := hinv.cursor j u₀ p h₀ hp₀
      rw [lookup_set t' hi]
      by_cases hpi : p = i
      · subst hpi
        rw [hi] at htp
        cases htp
        exact ⟨hlt, t', by simp, (hs hsp).1, by rw [hl, ← hl₀]; exact hne⟩
      · exact ⟨hlt, tp, by rw [if_neg hpi]; exact htp, hsp, hl₀ ▸ hne⟩
    rcases lookup_set_old t' hi hj with ⟨rfl, rfl, hold⟩ | ⟨_, hold⟩
    · exact key t hold (hp ▸ hpar) hl.symm
    · exact key u hold hpar rfl
  · intro k u hk
    rw [childLinks_set threads i k t t' hi hl hp]
    rcases lookup_set_old t' hi hk with ⟨rfl, rfl, hold⟩ | ⟨_, hold⟩
    · obtain ⟨h1, h2⟩ := hinv.tasks _ _ hold
      cases hsp : t.pc.spawned with
      | false =>
        rw [h2 hsp]
        exact ⟨List.nil_sublist _, fun _ => rfl⟩
      | true =>
        obtain ⟨h3, h4⟩ := hs hsp
        rw [h4]
        exact ⟨h1, fun h => by rw [h3] at h; cases h⟩
    · exact hinv.tasks _ _ hold

/-- Overwriting a thread that keeps its cursor, and stays finished with a node
if it was, keeps the threads that have appended a node. -/
theorem nodeOf_set {threads : List Thread} {i : Nat} {t : Thread} (t' : Thread)
    (hi : threads[i]? = some t) (hp : t'.parent = t.parent)
    (hnode : t.pc = .done .node → t'.pc = .done .node) {p k : Nat}
    (h : NodeOf threads p k) : NodeOf (threads.set i t') p k := by
  obtain ⟨u, hu, hpar, hpc⟩ := h
  unfold NodeOf
  rw [lookup_set t' hi]
  by_cases hki : k = i
  · subst hki
    rw [hi] at hu
    cases hu
    exact ⟨t', by simp, hp.trans hpar, hnode hpc⟩
  · exact ⟨u, by rw [if_neg hki]; exact hu, hpar, hpc⟩

/-- Overwriting a thread keeps the invariant when the link and the cursor stay,
a thread past its spawning loop stays past it with the same `pageLinks`, a
thread finished with a node stays so, and the new children and the new slice
read in line 167 are threads that have appended a node. -/
theorem inv_set (w : World) (root : String) (threads : List Thread) (i : Nat)
    (t t' : Thread) (hinv : Inv w root threads) (hi : threads[i]? = some t)
    (hl : t'.link = t.link) (hp : t'.parent = t.parent) (hloc : Local w root t')
    (hs : t.pc.spawned = true →
      t'.pc.spawned = true ∧ t'.pageLinks = t.pageLinks)
    (hnode : t.pc = .done .node → t'.pc = .done .node)
    (hc : ∀ j ∈ t'.child, NodeOf (threads.set i t') i j)
    (hnd : t'.child.Nodup)
    (hseen : ∀ (seen : List Nat) (p : Nat), t'.pc = .appending seen →
      t'.parent = some p →
      seen.Nodup ∧ ∀ k ∈ seen, NodeOf (threads.set i t') p k) :
    Inv w root (threads.set i t') := by
  refine ⟨shape_set w root threads i t t' hinv.shape hi hl hp hloc hs, ?_, ?_, ?_⟩
  · intro k u j hk hj
    rcases lookup_set_old t' hi hk with ⟨rfl, rfl, _⟩ | ⟨_, hold⟩
    · exact hc j hj
    · exact nodeOf_set t' hi hp hnode (hinv.child k u j hold hj)
  · intro k u hk
    rcases lookup_set_old t' hi hk with ⟨rfl, rfl, _⟩ | ⟨_, hold⟩
    · exact hnd
    · exact hinv.nodup _ _ hold
  · intro k u seen p hk hpc hpar
    rcases lookup_set_old t' hi hk with ⟨rfl, rfl, _⟩ | ⟨_, hold⟩
    · exact hseen seen p hpc hpar
    · obtain ⟨h1, h2⟩ := hinv.seen k u seen p hold hpc hpar
      exact ⟨h1, fun j hj => nodeOf_set t' hi hp hnode (h2 j hj)⟩

/-- A step of a thread that is not past its spawning loop keeps the invariant
when it keeps the link, the cursor and the children. -/
theorem inv_update (w : World) (root : String) (threads : List Thread) (i : Nat)
    (t t' : Thread) (hinv : Inv w root threads) (hi : threads[i]? = some t)
    (hs : t.pc.spawned = false) (hs' : ∀ seen, t'.pc ≠ .appending seen)
    (hl : t'.link = t.link) (hp : t'.parent = t.parent)
    (hc : t'.child = t.child) (hloc : Local w root t') :
    Inv w root (threads.set i t') := by
  have hnode : t.pc = .done .node → t'.pc = .done .node :=
    fun h => absurd h (spawned_false_ne_node hs)
  refine inv_set w root threads i t t' hinv hi hl hp hloc
    (fun h => by rw [hs] at h; cases h) hnode ?_ ?_ ?_
  · intro j hj
    rw [hc] at hj
    exact nodeOf_set t' hi hp hnode (hinv.child i t j hi hj)
  · rw [hc]
    exact hinv.nodup i t hi
  · intro seen p hpc _
    exact absurd hpc (hs' seen)

theorem lookup_append_old {threads new : List Thread} {j : Nat} {u : Thread}
    (hj : threads[j]? = some u) : (threads ++ new)[j]? = some u := by
  have hlt : j < threads.length := (List.getElem?_eq_some.mp hj).1
  rw [List.getElem?_append_left hlt]
  exact hj

theorem lookup_append_spawn {threads : List Thread} {i : Nat}
    {children : List String} {j : Nat} {u : Thread}
    (hj : (threads ++ children.map (spawn i))[j]? = some u) :
    threads[j]? = some u ∨
      (threads.length ≤ j ∧ ∃ c ∈ children, u = spawn i c) := by
  by_cases hlt : j < threads.length
  · left
    rw [List.getElem?_append_left hlt] at hj
    exact hj
  · right
    have hle : threads.length ≤ j := Nat.le_of_not_lt hlt
    rw [List.getElem?_append_right hle] at hj
    refine ⟨hle, ?_⟩
    have hm := List.getElem?_mem hj
    rw [List.mem_map] at hm
    obtain ⟨c, hc, rfl⟩ := hm
    exact ⟨c, hc, rfl⟩

theorem childLinks_eq_nil {threads : List Thread} {p : Nat}
    (h : ∀ t ∈ threads, t.parent ≠ some p) : childLinks threads p = [] := by
  unfold childLinks tasksOf
  rw [List.map_eq_nil_iff, List.filter_eq_nil_iff]
  intro t ht
  simpa using h t ht

theorem childLinks_out_of_range (w : World) (root : String)
    (threads : List Thread) (hinv : Shape w root threads) (p : Nat)
    (hp : threads.length ≤ p) : childLinks threads p = [] := by
  apply childLinks_eq_nil
  intro t ht hpar
  obtain ⟨j, hj⟩ := List.getElem?_of_mem ht
  obtain ⟨_, tp, htp, _⟩ := hinv.cursor j t p hj hpar
  have := (List.getElem?_eq_some.mp htp).1
  omega

theorem nodeOf_append {threads new : List Thread} {p k : Nat}
    (h : NodeOf threads p k) : NodeOf (threads ++ new) p k := by
  obtain ⟨u, hu, hpar, hpc⟩ := h
  exact ⟨u, lookup_append_old hu, hpar, hpc⟩

/-- Starting the goroutines of the children keeps the invariant. -/
theorem inv_append (w : World) (root : String) (threads : List Thread) (i : Nat)
    (t : Thread) (children : List String) (hinv : Inv w root threads)
    (hi : threads[i]? = some t) (hs : t.pc.spawned = true)
    (hnone : childLinks threads i = [])
    (hsub : children.Sublist (inScope w root t.pageLinks))
    (hch : ∀ c ∈ children, c ≠ t.link ∧ shouldCrawl w c root = true) :
    Inv w root (threads ++ children.map (spawn i)) := by
  have hilt : i < threads.length := (List.getElem?_eq_some.mp hi).1
  have hsh := hinv.shape
  refine ⟨⟨?_, ?_, ?_, ?_, ?_⟩, ?_, ?_, ?_⟩
  · obtain ⟨t0, h0, hp0, hl0⟩ := hsh.main
    exact ⟨t0, lookup_append_old h0, hp0, hl0⟩
  · intro j u hj hpar
    rcases lookup_append_spawn hj with hold | ⟨_, c, _, rfl⟩
    · exact hsh.orphan _ _ hold hpar
    · simp [spawn] at hpar
  · intro j u hj
    rcases lookup_append_spawn hj with hold | ⟨_, c, hc, rfl⟩
    · exact hsh.loc _ _ hold
    · exact ⟨fun _ => (hch c hc).2, by simp [spawn], by simp [spawn]⟩
  · intro j u p hj hpar
    rcases lookup_append_spawn hj with hold | ⟨hle, c, hc, rfl⟩
    · obtain ⟨hlt, tp, htp, hsp, hne⟩ := hsh.cursor j u p hold hpar
      exact ⟨hlt, tp, lookup_append_old htp, hsp, hne⟩
    · simp only [spawn, Option.some.injEq] at hpar
      subst hpar
      exact ⟨by omega, t, lookup_append_old hi, hs, (hch c hc).1⟩
  · intro k u hk
    rw [childLinks_append]
    by_cases hki : i = k
    · subst hki
      rw [childLinks_spawn_self, hnone, List.nil_append]
      have hu : u = t := by
        have := @lookup_append_old threads (children.map (spawn i)) i t hi
        rw [this] at hk
        exact (Option.some.inj hk).symm
      subst hu
      exact ⟨hsub, fun h => by rw [hs] at h; cases h⟩
    · rw [childLinks_spawn_other i k children hki, List.append_nil]
      rcases lookup_append_spawn hk with hold | ⟨hle, c, _, rfl⟩
      · exact hsh.tasks _ _ hold
      · rw [childLinks_out_of_range w root threads hsh k hle]
        exact ⟨List.nil_sublist _, fun _ => rfl⟩
  · intro k u j hk hj
    rcases lookup_append_spawn hk with hold | ⟨_, c, _, rfl⟩
    · exact nodeOf_append (hinv.child k u j hold hj)
    · simp [spawn] at hj
  · intro k u hk
    rcases lookup_append_spawn hk with hold | ⟨_, c, _, rfl⟩
    · exact hinv.nodup _ _ hold
    · simp [spawn]
  · intro k u seen p hk hpc hpar
    rcases lookup_append_spawn hk with hold | ⟨_, c, _, rfl⟩
    · obtain ⟨h1, h2⟩ := hinv.seen k u seen p hold hpc hpar
      exact ⟨h1, fun j hj => nodeOf_append (h2 j hj)⟩
    · simp [spawn] at hpc

theorem local_of_pc (w : World) (root : String) (t : Thread) (pc : PC)
    (hloc : Local w root t) (hok : fetchOK w t.link = true)
    (hpc : pc = .returned ∨ (∃ seen, pc = .appending seen) ∨ pc = .done .node) :
    Local w root { t with pc := pc } := by
  refine ⟨hloc.1, hloc.2.1, ?_⟩
  rcases hpc with rfl | ⟨seen, rfl⟩ | rfl <;> exact hok

theorem fetchOK_of_spawned (w : World) (root : String) (t : Thread)
    (hloc : Local w root t) (hs : t.pc.spawned = true) :
    fetchOK w t.link = true := by
  have h := hloc.2.2
  cases hpc : t.pc with
  | start => simp [hpc, PC.spawned] at hs
  | checked => simp [hpc, PC.spawned] at hs
  | scanning links children => simp [hpc, PC.spawned] at hs
  | returned => rw [hpc] at h; exact h
  | appending seen => rw [hpc] at h; exact h
  | done r =>
    cases r with
    | visited => simp [hpc, PC.spawned] at hs
    | failed => simp [hpc, PC.spawned] at hs
    | node => rw [hpc] at h; exact h

theorem appendRead_threads (s : State) (i : Nat) (t : Thread) :
    ∃ pc, (pc = .done .node ∨ ∃ p tp, t.parent = some p ∧ s.threads[p]? = some tp ∧
        pc = .appending tp.child) ∧
      (appendRead s i t).threads = s.threads.set i { t with pc := pc } := by
  unfold appendRead
  split
  · exact ⟨_, Or.inl rfl, rfl⟩
  · rename_i p hp
    split
    · exact ⟨_, Or.inl rfl, rfl⟩
    · rename_i tp htp
      exact ⟨_, Or.inr ⟨p, tp, hp, htp, rfl⟩, rfl⟩

theorem appendWrite_threads (s : State) (i : Nat) (t : Thread) (seen : List Nat) :
    (appendWrite s i t seen).threads = s.threads.set i { t with pc := .done .node } ∨
    ∃ p tp, t.parent = some p ∧
      (s.threads.set i { t with pc := .done .node })[p]? = some tp ∧
      (appendWrite s i t seen).threads =
        (s.threads.set i { t with pc := .done .node }).set p
          { tp with child := seen ++ [i] } := by
  unfold appendWrite
  simp only [setThread]
  split
  · exact Or.inl rfl
  · rename_i p hp
    split
    · exact Or.inl rfl
    · rename_i tp htp
      exact Or.inr ⟨p, tp, hp, htp, rfl⟩

/-- The read of line 167 keeps the invariant. -/
theorem inv_appendRead (w : World) (root : String) (s : State) (i : Nat)
    (t : Thread) (hinv : Inv w root s.threads) (hi : s.threads[i]? = some t)
    (hpc : t.pc = .returned) :
    Inv w root (appendRead s i t).threads := by
  have hloc := hinv.shape.loc i t hi
  have hsp : t.pc.spawned = true := by simp [hpc, PC.spawned]
  have hok := fetchOK_of_spawned w root t hloc hsp
  have hnode : ∀ pc : PC, t.pc = .done .node → pc = .done .node := by
    intro pc h
    rw [hpc] at h
    cases h
  obtain ⟨pc, hcases, hth⟩ := appendRead_threads s i t
  rw [hth]
  refine inv_set w root _ i t { t with pc := pc } hinv hi rfl rfl
    (local_of_pc w root t pc hloc hok ?_) (fun _ => ⟨?_, rfl⟩) (hnode pc)
    (fun j hj => nodeOf_set { t with pc := pc } hi rfl (hnode pc)
      (hinv.child i t j hi hj))
    (hinv.nodup i t hi) ?_
  · rcases hcases with rfl | ⟨p, tp, _, _, rfl⟩
    · exact Or.inr (Or.inr rfl)
    · exact Or.inr (Or.inl ⟨_, rfl⟩)
  · rcases hcases with rfl | ⟨p, tp, _, _, rfl⟩ <;> rfl
  · intro seen p' hseen hpar'
    rcases hcases with rfl | ⟨p, tp, hpar, htp, rfl⟩
    · simp at hseen
    · simp only [PC.appending.injEq] at hseen
      subst hseen
      have hpp : p' = p := by
        have : some p' = some p := hpar'.symm.trans hpar
        exact Option.some.inj this
      subst hpp
      exact ⟨hinv.nodup p' tp htp,
        fun k hk => nodeOf_set { t with pc := .appending tp.child } hi rfl
          (hnode _) (hinv.child p' tp k htp hk)⟩

/-- The write of line 167 keeps the invariant. -/
theorem inv_appendWrite (w : World) (root : String) (s : State) (i : Nat)
    (t : Thread) (seen : List Nat) (hinv : Inv w root s.threads)
    (hi : s.threads[i]? = some t) (hpc : t.pc = .appending seen) :
    Inv w root (appendWrite s i t seen).threads := by
  have hloc := hinv.shape.loc i t hi
  have hsp : t.pc.spawned = true := by simp [hpc, PC.spawned]
  have hok := fetchOK_of_spawned w root t hloc hsp
  have hnode : t.pc = .done .node → PC.done Ret.node = .done .node := fun _ => rfl
  have hdone : Inv w root (s.threads.set i { t with pc := .done .node }) :=
    inv_set w root _ i t { t with pc := .done .node } hinv hi rfl rfl
      (local_of_pc w root t _ hloc hok (Or.inr (Or.inr rfl)))
      (fun _ => ⟨rfl, rfl⟩) hnode
      (fun j hj => nodeOf_set { t with pc := .done .node } hi rfl hnode
        (hinv.child i t j hi hj))
      (hinv.nodup i t hi) (fun seen p h _ => by simp at h)
  have hi₁ : (s.threads.set i { t with pc := .done .node })[i]? =
      some { t with pc := .done .node } := by
    rw [lookup_set _ hi, if_pos rfl]
  rcases appendWrite_threads s i t seen with hth | ⟨p, tp, hpar, htp₁, hth⟩
  · rw [hth]; exact hdone
  · rw [hth]
    obtain ⟨hlt, _⟩ := hinv.shape.cursor i t p hi hpar
    have hpi : p ≠ i := Nat.ne_of_lt hlt
    have htp : s.threads[p]? = some tp := by
      rw [lookup_set _ hi, if_neg hpi] at htp₁; exact htp₁
    obtain ⟨hnd, hmem⟩ := hinv.seen i t seen p hi hpc hpar
    have hself : NodeOf (s.threads.set i { t with pc := .done .node }) p i :=
      ⟨_, hi₁, hpar, rfl⟩
    have hnotin : i ∉ seen := by
      intro h
      obtain ⟨u, hu, _, hu2⟩ := hmem i h
      rw [hi] at hu
      cases hu
      rw [hpc] at hu2
      cases hu2
    refine inv_set w root _ p tp { tp with child := seen ++ [i] } hdone htp₁
      rfl rfl (hinv.shape.loc p tp htp) (fun h => ⟨h, rfl⟩) (fun h => h) ?_ ?_ ?_
    · intro j hj
      rw [List.mem_append, List.mem_singleton] at hj
      have hj' : NodeOf (s.threads.set i { t with pc := .done .node }) p j := by
        rcases hj with hj | hj
        · exact nodeOf_set { t with pc := .done .node } hi rfl hnode (hmem j hj)
        · rw [hj]; exact hself
      exact nodeOf_set { tp with child := seen ++ [i] } htp₁ rfl (fun h => h) hj'
    · exact List.nodup_append.mpr ⟨hnd, List.nodup_singleton i, by
        intro a ha hb
        rw [List.mem_singleton] at hb
        exact hnotin (hb ▸ ha)⟩
    · intro seen' p' hseen' hpar'
      obtain ⟨h1, h2⟩ := hdone.seen p tp seen' p' htp₁ hseen' hpar'
      exact ⟨h1, fun k hk =>
        nodeOf_set { tp with child := seen ++ [i] } htp₁ rfl (fun h => h) (h2 k hk)⟩

theorem inv_visitCheck (w : World) (root : String) (s : State) (i : Nat)
    (t : Thread) (hinv : Inv w root s.threads) (hi : s.threads[i]? = some t)
    (hpc : t.pc = .start) : Inv w root (visitCheck s i t).threads := by
  have hloc := hinv.shape.loc i t hi
  unfold visitCheck
  simp only [setThread]
  split
  · exact inv_update w root _ i t _ hinv hi (by simp [hpc, PC.spawned]) (by simp)
      rfl rfl rfl ⟨hloc.1, hloc.2.1, trivial⟩
  · exact inv_update w root _ i t _ hinv hi (by simp [hpc, PC.spawned]) (by simp)
      rfl rfl rfl ⟨hloc.1, hloc.2.1, trivial⟩

theorem visitFetch_threads (w : World) (group : String → Bool) (s : State)
    (i : Nat) (t : Thread) :
    (visitFetch w group s i t).threads =
      s.threads.set i { t with pc :=
        (match w.httpGet t.link with
        | .error _ => .done .failed
        | .ok resp =>
          if resp.statusCode ≠ StatusOK then .done .failed
          else .scanning (filterLinks (w.rangeOrder i) (parseLinks w resp.body)) []) } := by
  unfold visitFetch
  cases w.httpGet t.link with
  | error err => cases group t.link <;> simp [setThread, sendErr, setVisited]
  | ok resp =>
    by_cases hst : resp.statusCode = StatusOK <;>
      cases group t.link <;> simp [setThread, sendErr, setVisited, hst]

theorem inv_visitFetch (w : World) (root : String) (group : String → Bool)
    (s : State) (i : Nat) (t : Thread) (hinv : Inv w root s.threads)
    (hi : s.threads[i]? = some t) (hpc : t.pc = .checked) :
    Inv w root (visitFetch w group s i t).threads := by
  have hloc := hinv.shape.loc i t hi
  rw [visitFetch_threads]
  have hsp : t.pc.spawned = false := by simp [hpc, PC.spawned]
  cases hget : w.httpGet t.link with
  | error err =>
    exact inv_update w root _ i t _ hinv hi hsp (by simp)
      rfl rfl rfl ⟨hloc.1, hloc.2.1, by simp [fetchOK, hget]⟩
  | ok resp =>
    by_cases hst : resp.statusCode = StatusOK
    · simp only [hst, ne_eq, not_true_eq_false, if_false]
      exact inv_update w root _ i t _ hinv hi hsp (by simp)
        rfl rfl rfl ⟨hloc.1, hloc.2.1, by simp [fetchOK, hget, hst]⟩
    · simp only [hst, ne_eq, not_false_eq_true, if_true]
      exact inv_update w root _ i t _ hinv hi hsp (by simp)
        rfl rfl rfl ⟨hloc.1, hloc.2.1, by simp [fetchOK, hget, hst]⟩

theorem inScope_append (w : World) (root : String) (pageLinks : List String)
    (link : String) :
    inScope w root (pageLinks ++ [link]) =
      inScope w root pageLinks ++ (if shouldCrawl w link root then [link] else []) := by
  simp only [inScope, List.filter_append, List.filter_cons, List.filter_nil]

theorem inv_visitLink (w : World) (root : String) (s : State) (i : Nat)
    (t : Thread) (link : String) (links children : List String)
    (hinv : Inv w root s.threads) (hi : s.threads[i]? = some t)
    (hpc : t.pc = .scanning (link :: links) children) :
    Inv w root (visitLink w root s i t link links children).threads := by
  have hloc := hinv.shape.loc i t hi
  obtain ⟨h1, h2, h3⟩ := hloc
  simp only [hpc] at h3
  obtain ⟨hok, hch, hsub⟩ := h3
  have hsp : t.pc.spawned = false := by simp [hpc, PC.spawned]
  unfold visitLink
  cases hclean : cleanURL w link t.link with
  | error err =>
    simp only [setThread, sendErr]
    exact inv_update w root _ i t _ hinv hi hsp (by simp) rfl rfl rfl
      ⟨h1, h2, hok, hch, hsub⟩
  | ok l =>
    simp only
    by_cases hself : l = t.link
    · rw [if_pos hself]
      simp only [setThread]
      exact inv_update w root _ i t _ hinv hi hsp (by simp) rfl rfl rfl
        ⟨h1, h2, hok, hch, hsub⟩
    · rw [if_neg hself]
      have hnot : t.link ∉ t.pageLinks ++ [l] := by
        simp only [List.mem_append, List.mem_singleton, not_or]
        exact ⟨h2, fun e => hself e.symm⟩
      cases hscope : shouldCrawl w l root with
      | false =>
        simp only [Bool.not_false, if_true, setThread]
        refine inv_update w root _ i t _ hinv hi hsp (by simp) rfl rfl rfl
          ⟨h1, hnot, hok, hch, ?_⟩
        show children.Sublist (inScope w root (t.pageLinks ++ [l]))
        rw [inScope_append, hscope]
        simpa using hsub
      | true =>
        have hsub' : (children ++ [l]).Sublist (inScope w root (t.pageLinks ++ [l])) := by
          rw [inScope_append, hscope]
          exact List.Sublist.append hsub (List.Sublist.refl _)
        have hsub'' : children.Sublist (inScope w root (t.pageLinks ++ [l])) :=
          (List.sublist_append_left children [l]).trans hsub'
        simp only [Bool.not_true, Bool.false_eq_true, if_false]
        split
        · simp only [setThread]
          refine inv_update w root _ i t _ hinv hi hsp (by simp) rfl rfl rfl
            ⟨h1, hnot, hok, ?_, hsub'⟩
          intro c hc
          rw [List.mem_append, List.mem_singleton] at hc
          rcases hc with hc | rfl
          · exact hch c hc
          · exact ⟨hself, hscope⟩
        · simp only [setThread]
          exact inv_update w root _ i t _ hinv hi hsp (by simp) rfl rfl rfl
            ⟨h1, hnot, hok, hch, hsub''⟩

theorem inv_visitSpawn (w : World) (root : String) (s : State) (i : Nat)
    (t : Thread) (children : List String)
    (hinv : Inv w root s.threads) (hi : s.threads[i]? = some t)
    (hpc : t.pc = .scanning [] children) :
    Inv w root (visitSpawn s i t children).threads := by
  have hloc := hinv.shape.loc i t hi
  obtain ⟨h1, h2, h3⟩ := hloc
  simp only [hpc] at h3
  obtain ⟨hok, hch, hsub⟩ := h3
  have hsp : t.pc.spawned = false := by simp [hpc, PC.spawned]
  have hinv₁ : Inv w root (s.threads.set i { t with pc := .returned }) :=
    inv_update w root _ i t _ hinv hi hsp (by simp) rfl rfl rfl ⟨h1, h2, hok⟩
  have hi₁ : (s.threads.set i { t with pc := .returned })[i]? =
      some { t with pc := .returned } := by
    rw [lookup_set _ hi, if_pos rfl]
  have hnone : childLinks (s.threads.set i { t with pc := .returned }) i = [] := by
    exact (childLinks_set s.threads i i t { t with pc := .returned } hi rfl rfl).trans
      ((hinv.shape.tasks i t hi).2 hsp)
  exact inv_append w root _ i _ children hinv₁ hi₁ rfl hnone hsub hch

/-- Every step keeps the invariant. -/
theorem inv_step (w : World) (root : String) (group : String → Bool) (s : State)
    (i : Nat) (hinv : Inv w root s.threads) :
    Inv w root (step w root group s i).threads := by
  unfold step
  cases hi : s.threads[i]? with
  | none => exact hinv
  | some t =>
    simp only
    cases hpc : t.pc with
    | start => exact inv_visitCheck w root s i t hinv hi hpc
    | checked => exact inv_visitFetch w root group s i t hinv hi hpc
    | scanning links children =>
      cases links with
      | nil => exact inv_visitSpawn w root s i t children hinv hi hpc
      | cons link links =>
        exact inv_visitLink w root s i t link links children hinv hi hpc
    | returned => exact inv_appendRead w root s i t hinv hi hpc
    | appending seen => exact inv_appendWrite w root s i t seen hinv hi hpc
    | done r => exact hinv

/-- The invariant holds after every schedule. -/
theorem inv_run (w : World) (root : String) (group : String → Bool)
    (sched : List Nat) (s : State) (hinv : Inv w root s.threads) :
    Inv w root (run w root group s sched).threads := by
  induction sched generalizing s with
  | nil => exact hinv
  | cons i sched ih => exact ih _ (inv_step w root group s i hinv)

theorem inv_crawlState (w : World) (root : String) (group : String → Bool)
    (sched : List Nat) : Inv w root (crawlState w root group sched).threads :=
  inv_run w root group sched _ (inv_initial w root)

/-! ## The tree that `Crawl` returns -/

theorem mem_subtreesList (n : Node) (cs : List Node) :
    n ∈ Node.subtreesList cs ↔ ∃ c ∈ cs, n ∈ c.subtrees := by
  induction cs with
  | nil => simp [Node.subtreesList]
  | cons c cs ih => simp [Node.subtreesList, ih]

theorem self_mem_subtrees (n : Node) : n ∈ n.subtrees := by
  cases n with
  | mk pageLinks link child => simp [Node.subtrees]

/-- A child pointer of a thread points to a younger thread, started with this
thread as cursor, with another link, whose `visit` returned a node. -/
theorem child_valid (w : World) (root : String) (threads : List Thread)
    (hinv : Inv w root threads) (i : Nat) (t : Thread)
    (hi : threads[i]? = some t) (j : Nat) (hj : j ∈ t.child) :
    i < j ∧ ∃ u, threads[j]? = some u ∧ u.parent = some i ∧ u.link ≠ t.link ∧
      u.pc = .done .node := by
  obtain ⟨u, hu, hpar, hpc⟩ := hinv.child i t j hi hj
  obtain ⟨hlt, tp, htp, _, hne⟩ := hinv.shape.cursor j u i hu hpar
  rw [hi] at htp
  cases htp
  exact ⟨hlt, u, hu, hpar, hne, hpc⟩

theorem toNode_of_thread (threads : List Thread) (fuel i : Nat) (t : Thread)
    (hi : threads[i]? = some t) :
    ∃ cs, toNode threads fuel i = .mk (some t.pageLinks) t.link (some cs) ∧
      ∀ c ∈ cs, ∃ fuel' j, j ∈ t.child ∧ c = toNode threads fuel' j := by
  cases fuel with
  | zero => exact ⟨[], by simp [toNode, hi], by simp⟩
  | succ fuel =>
    refine ⟨t.child.map (toNode threads fuel), by simp [toNode, hi], ?_⟩
    intro c hc
    rw [List.mem_map] at hc
    obtain ⟨j, hj, rfl⟩ := hc
    exact ⟨fuel, j, hj, rfl⟩

/-- Every node of the tree below a thread is the node of a thread: of that
thread, or of one whose `visit` returned a node. -/
theorem mem_subtrees_toNode (w : World) (root : String) (threads : List Thread)
    (hinv : Inv w root threads) (fuel : Nat) :
    ∀ (i : Nat) (t : Thread), threads[i]? = some t →
      ∀ n ∈ (toNode threads fuel i).subtrees,
        ∃ fuel' j u, threads[j]? = some u ∧ n = toNode threads fuel' j ∧
          (j = i ∨ u.pc = .done .node) := by
  induction fuel with
  | zero =>
    intro i t hi n hn
    simp only [toNode, hi, Node.subtrees, Node.subtreesOpt, Node.subtreesList,
      List.mem_singleton] at hn
    exact ⟨0, i, t, hi, by simp [toNode, hi, hn], Or.inl rfl⟩
  | succ fuel ih =>
    intro i t hi n hn
    simp only [toNode, hi, Node.subtrees, Node.subtreesOpt, List.mem_cons,
      mem_subtreesList, List.mem_map] at hn
    rcases hn with hn | ⟨c, ⟨j, hj, rfl⟩, hn⟩
    · exact ⟨fuel + 1, i, t, hi, by simp [toNode, hi, hn], Or.inl rfl⟩
    · obtain ⟨_, u, hu, _, _, hpc⟩ := child_valid w root threads hinv i t hi j hj
      obtain ⟨fuel', k, v, hv, hn', hk⟩ := ih j u hu n hn
      refine ⟨fuel', k, v, hv, hn', Or.inr ?_⟩
      rcases hk with rfl | hk
      · rw [hu] at hv
        cases hv
        exact hpc
      · exact hk

/-- More fuel than there are threads does not change the tree: the tree of
thread `0` followed to the depth of the number of threads is the whole
tree. -/
theorem toNode_fuel (w : World) (root : String) (threads : List Thread)
    (hinv : Inv w root threads) (fuel : Nat) :
    ∀ i, threads.length ≤ i + fuel →
      toNode threads (fuel + 1) i = toNode threads fuel i := by
  induction fuel with
  | zero =>
    intro i hle
    have : threads[i]? = none := List.getElem?_eq_none (by omega)
    simp [toNode, this]
  | succ fuel ih =>
    intro i hle
    cases hi : threads[i]? with
    | none => simp [toNode, hi]
    | some t =>
      simp only [toNode, hi]
      congr 2
      apply List.map_congr_left
      intro j hj
      obtain ⟨hlt, _⟩ := child_valid w root threads hinv i t hi j hj
      exact ih j (by omega)

/-- The tree of thread `0` followed to the depth of the number of threads is
the tree followed to any greater depth. -/
theorem toNode_enough (w : World) (root : String) (threads : List Thread)
    (hinv : Inv w root threads) (k : Nat) :
    toNode threads (threads.length + k) 0 = toNode threads threads.length 0 := by
  induction k with
  | zero => rfl
  | succ k ih =>
    rw [← ih]
    exact toNode_fuel w root threads hinv (threads.length + k) 0 (by omega)

/-- What a returned tree says about the final state. -/
theorem crawlWith_tree (w : World) (root : String) (group : String → Bool)
    (sched : List Nat) (tree : Node)
    (h : crawlWith w root group sched = some (some tree)) :
    (crawlState w root group sched).drained = true ∧
    ∃ t, (crawlState w root group sched).threads[0]? = some t ∧
      t.pc = .done .node ∧ t.link = root ∧
      tree = toNode (crawlState w root group sched).threads
        (crawlState w root group sched).threads.length 0 := by
  unfold crawlWith at h
  simp only at h
  split at h
  · rename_i hd
    refine ⟨hd, ?_⟩
    simp only [Option.some.injEq] at h
    unfold State.result at h
    obtain ⟨t0, h0, _, hl0⟩ := (inv_crawlState w root group sched).shape.main
    rw [h0] at h
    simp only at h
    split at h
    · rename_i hpc
      exact ⟨t0, h0, hpc, hl0, (Option.some.inj h).symm⟩
    · cases h
  · cases h

theorem Crawl_tree (w : World) (root : String) (sched : List Nat) (tree : Node)
    (h : Crawl w root sched = some (some tree)) :
    ∃ group, crawlWith w root group sched = some (some tree) := by
  unfold Crawl at h
  split at h
  · cases h
  · split at h
    · cases h
    · rename_i group _
      exact ⟨group, h⟩

theorem shouldCrawl_iff (w : World) (next root : String) :
    shouldCrawl w next root = true ↔
      ∃ uri domain, w.urlParse next = .ok uri ∧ w.urlParse root = .ok domain ∧
        w.urlHostname uri = w.urlHostname domain := by
  unfold shouldCrawl
  cases h1 : w.urlParse next with
  | error e => simp
  | ok uri =>
    cases h2 : w.urlParse root with
    | error e => simp
    | ok domain => simp

theorem link_set {threads : List Thread} {i : Nat} {t : Thread} (t' : Thread)
    (hi : threads[i]? = some t) (hl : t'.link = t.link) {u : String}
    (h : ∃ (j : Nat) (v : Thread), threads[j]? = some v ∧ v.link = u) :
    ∃ (j : Nat) (v : Thread), (threads.set i t')[j]? = some v ∧ v.link = u := by
  obtain ⟨j, v, hv, hu⟩ := h
  by_cases hji : j = i
  · subst hji
    rw [hi] at hv
    cases hv
    exact ⟨j, t', by rw [lookup_set t' hi, if_pos rfl], hl.trans hu⟩
  · exact ⟨j, v, by rw [lookup_set t' hi, if_neg hji]; exact hv, hu⟩

theorem link_append {threads new : List Thread} {u : String}
    (h : ∃ (j : Nat) (v : Thread), threads[j]? = some v ∧ v.link = u) :
    ∃ (j : Nat) (v : Thread), (threads ++ new)[j]? = some v ∧ v.link = u := by
  obtain ⟨j, v, hv, hu⟩ := h
  exact ⟨j, v, lookup_append_old hv, hu⟩

/-- A step keeps the links of the threads. -/
theorem step_links (w : World) (root : String) (group : String → Bool)
    (s : State) (i : Nat) (u : String)
    (h : ∃ (j : Nat) (v : Thread), s.threads[j]? = some v ∧ v.link = u) :
    ∃ (j : Nat) (v : Thread),
      (step w root group s i).threads[j]? = some v ∧ v.link = u := by
  unfold step
  cases hi : s.threads[i]? with
  | none => exact h
  | some t =>
    simp only
    cases hpc : t.pc with
    | start =>
      simp only [visitCheck, setThread]
      split
      · exact link_set _ hi (by rfl) h
      · exact link_set _ hi (by rfl) h
    | checked =>
      simp only [visitFetch_threads]
      exact link_set _ hi (by rfl) h
    | scanning links children =>
      cases links with
      | nil =>
        simp only [visitSpawn, setThread]
        exact link_append (link_set _ hi (by rfl) h)
      | cons link links =>
        simp only [visitLink, sendErr, setThread]
        cases cleanURL w link t.link with
        | error err => exact link_set _ hi (by rfl) h
        | ok l =>
          simp only
          split
          · exact link_set _ hi (by rfl) h
          · split
            · exact link_set _ hi (by rfl) h
            · split
              · exact link_set _ hi (by rfl) h
              · exact link_set _ hi (by rfl) h
    | returned =>
      simp only
      obtain ⟨pc, _, hth⟩ := appendRead_threads s i t
      rw [hth]
      exact link_set _ hi (by rfl) h
    | appending seen =>
      simp only
      rcases appendWrite_threads s i t seen with hth | ⟨p, tp, _, htp, hth⟩
      · rw [hth]
        exact link_set _ hi (by rfl) h
      · rw [hth]
        exact link_set _ htp (by rfl) (link_set _ hi (by rfl) h)
    | done r => exact h

/-- A step calls `http.Get` for the link of the thread that takes it, or not at
all. -/
theorem step_fetched (w : World) (root : String) (group : String → Bool)
    (s : State) (i : Nat) :
    (step w root group s i).fetched = s.fetched ∨
    ∃ t, s.threads[i]? = some t ∧
      (step w root group s i).fetched = s.fetched ++ [t.link] := by
  unfold step
  cases hi : s.threads[i]? with
  | none => exact Or.inl rfl
  | some t =>
    simp only
    cases hpc : t.pc with
    | start =>
      left
      simp only [visitCheck, setThread]
      split <;> rfl
    | checked =>
      right
      refine ⟨t, rfl, ?_⟩
      unfold visitFetch
      cases w.httpGet t.link with
      | error err => cases group t.link <;> simp [setThread, sendErr, setVisited]
      | ok resp =>
        by_cases hst : resp.statusCode = StatusOK <;>
          cases group t.link <;> simp [setThread, sendErr, setVisited, hst]
    | scanning links children =>
      left
      cases links with
      | nil => simp [visitSpawn, setThread]
      | cons link links =>
        simp only [visitLink, sendErr, setThread]
        cases cleanURL w link t.link with
        | error err => rfl
        | ok l =>
          simp only
          split
          · rfl
          · split
            · rfl
            · split <;> rfl
    | returned =>
      left
      simp only [appendRead, setThread]
      split
      · rfl
      · split <;> rfl
    | appending seen =>
      left
      simp only [appendWrite, setThread]
      split
      · rfl
      · split <;> rfl
    | done r => exact Or.inl rfl

/-- Every argument of `http.Get` is the link of a thread. -/
theorem fetched_links (w : World) (root : String) (group : String → Bool)
    (sched : List Nat) (s : State)
    (hs : ∀ u ∈ s.fetched, ∃ (j : Nat) (v : Thread), s.threads[j]? = some v ∧ v.link = u) :
    ∀ u ∈ (run w root group s sched).fetched,
      ∃ (j : Nat) (v : Thread),
        (run w root group s sched).threads[j]? = some v ∧ v.link = u := by
  induction sched generalizing s with
  | nil => exact hs
  | cons i sched ih =>
    apply ih
    intro u hu
    rcases step_fetched w root group s i with hf | ⟨t, hi, hf⟩
    · rw [hf] at hu
      exact step_links w root group s i u (hs u hu)
    · rw [hf, List.mem_append, List.mem_singleton] at hu
      rcases hu with hu | hu
      · exact step_links w root group s i u (hs u hu)
      · exact step_links w root group s i u ⟨i, t, hi, hu.symm⟩

/-- A thread of a crawl is thread `0`, for the root, or was started for a link
for which `shouldCrawl` holds. -/
theorem thread_in_scope (w : World) (root : String) (threads : List Thread)
    (hinv : Inv w root threads) (i : Nat) (t : Thread)
    (hi : threads[i]? = some t) :
    (i = 0 ∧ t.parent = none ∧ t.link = root) ∨
    (0 < i ∧ (∃ p, p < i ∧ t.parent = some p) ∧ shouldCrawl w t.link root = true) := by
  obtain ⟨t0, h0, hp0, hl0⟩ := hinv.shape.main
  cases hpar : t.parent with
  | none =>
    left
    have hz := hinv.shape.orphan i t hi hpar
    subst hz
    rw [h0] at hi
    cases hi
    exact ⟨rfl, rfl, hl0⟩
  | some p =>
    right
    obtain ⟨hlt, _⟩ := hinv.shape.cursor i t p hi hpar
    exact ⟨by omega, ⟨p, hlt, rfl⟩, (hinv.shape.loc i t hi).1 (by simp [hpar])⟩

/-- C3. Every node of the tree that `Crawl` returns is the root node, whose
location is the root itself, or the node of a link for which `shouldCrawl`
holds; `shouldCrawl` holds exactly when both URLs parse and their hostnames are
equal; so, when the root parses, the location of every node of the tree parses
and has the hostname of the root. A child task is only dispatched for a link
for which `shouldCrawl` holds: in every state of a crawl, under every policy
and every schedule, every thread but thread `0` was started for such a link,
whether or not its `visit` returns a node and whether or not its node stays in
the tree; every link that the loop of `visit` has put into `children` is such a
link; the goroutines that `visit` starts are those for the links in
`children`; and every URL that `visit` has fetched is the root or such a
link. -/
theorem crawl_nodes_in_scope (w : World) (root : String) (sched : List Nat)
    (tree : Node) (h : Crawl w root sched = some (some tree)) :
    tree.Link = root ∧
    (∀ n ∈ tree.subtrees, n.Link = root ∨ shouldCrawl w n.Link root = true) ∧
    (∀ next, shouldCrawl w next root = true ↔
      ∃ uri domain, w.urlParse next = .ok uri ∧ w.urlParse root = .ok domain ∧
        w.urlHostname uri = w.urlHostname domain) ∧
    (∀ domain, w.urlParse root = .ok domain → ∀ n ∈ tree.subtrees,
      ∃ uri, w.urlParse n.Link = .ok uri ∧
        w.urlHostname uri = w.urlHostname domain) ∧
    (∀ (group : String → Bool) (sched' : List Nat) (i : Nat) (t : Thread),
      (crawlState w root group sched').threads[i]? = some t →
      ((i = 0 ∧ t.parent = none ∧ t.link = root) ∨
        (0 < i ∧ (∃ p, p < i ∧ t.parent = some p) ∧
          shouldCrawl w t.link root = true)) ∧
      (∀ links children, t.pc = .scanning links children →
        ∀ c ∈ children, shouldCrawl w c root = true)) ∧
    (∀ (s : State) (i : Nat) (t : Thread) (children : List String),
      (visitSpawn s i t children).threads =
        s.threads.set i { t with pc := .returned } ++ children.map (spawn i)) ∧
    (∀ (s : State) (i : Nat) (t : Thread) (link : String)
        (links children : List String) (t' : Thread) (links' children' : List String),
      (visitLink w root s i t link links children).threads[i]? = some t' →
      s.threads[i]? = some t →
      t'.pc = .scanning links' children' →
      ∀ c ∈ children', c ∈ children ∨ shouldCrawl w c root = true) ∧
    (∀ (group : String → Bool) (sched' : List Nat),
      ∀ u ∈ (crawlState w root group sched').fetched,
        u = root ∨ shouldCrawl w u root = true) := by
  have hthreads : ∀ (group : String → Bool) (sched' : List Nat) (i : Nat)
      (t : Thread), (crawlState w root group sched').threads[i]? = some t →
      ((i = 0 ∧ t.parent = none ∧ t.link = root) ∨
        (0 < i ∧ (∃ p, p < i ∧ t.parent = some p) ∧
          shouldCrawl w t.link root = true)) := by
    intro group' sched' i t hi
    exact thread_in_scope w root _ (inv_crawlState w root group' sched') i t hi
  obtain ⟨group, hg⟩ := Crawl_tree w root sched tree h
  obtain ⟨_, t0, h0, _, hl0, rfl⟩ := crawlWith_tree w root group sched tree hg
  have hinv := inv_crawlState w root group sched
  generalize (crawlState w root group sched).threads = threads at h0 hinv hg ⊢
  have hnodes : ∀ n ∈ (toNode threads threads.length 0).subtrees,
      n.Link = root ∨ shouldCrawl w n.Link root = true := by
    intro n hn
    obtain ⟨fuel', j, u, hu, rfl, _⟩ :=
      mem_subtrees_toNode w root threads hinv _ 0 t0 h0 n hn
    obtain ⟨cs, hcs, _⟩ := toNode_of_thread threads fuel' j u hu
    rw [hcs]
    simp only [Node.Link]
    cases hpar : u.parent with
    | none =>
      left
      have hj := hinv.shape.orphan j u hu hpar
      subst hj
      rw [h0] at hu
      cases hu
      exact hl0
    | some p =>
      right
      exact (hinv.shape.loc j u hu).1 (by simp [hpar])
  refine ⟨?_, hnodes, fun next => shouldCrawl_iff w next root, ?_, ?_, ?_, ?_, ?_⟩
  · obtain ⟨cs, hcs, _⟩ := toNode_of_thread threads threads.length 0 t0 h0
    rw [hcs]
    exact hl0
  · intro domain hd n hn
    rcases hnodes n hn with he | hs
    · exact ⟨domain, by rw [he]; exact hd, rfl⟩
    · obtain ⟨uri, domain', h1, h2, h3⟩ := (shouldCrawl_iff w n.Link root).mp hs
      rw [hd] at h2
      cases h2
      exact ⟨uri, h1, h3⟩
  · intro group' sched' i t hi
    refine ⟨hthreads group' sched' i t hi, ?_⟩
    intro links children hpc c hc
    have hloc := ((inv_crawlState w root group' sched').shape.loc i t hi).2.2
    rw [hpc] at hloc
    exact (hloc.2.1 c hc).2
  · intro s i t children
    rfl
  · intro s i t link links children t' links' children' ht' hi hpc c hc
    rw [visitLink] at ht'
    cases hclean : cleanURL w link t.link with
    | error err =>
      rw [hclean] at ht'
      simp only [setThread, sendErr, lookup_set _ hi, if_pos, Option.some.injEq] at ht'
      subst ht'
      simp only [PC.scanning.injEq] at hpc
      exact Or.inl (hpc.2 ▸ hc)
    | ok l =>
      rw [hclean] at ht'
      simp only at ht'
      by_cases hself : l = t.link
      · rw [if_pos hself] at ht'
        simp only [setThread, lookup_set _ hi, if_pos, Option.some.injEq] at ht'
        subst ht'
        simp only [PC.scanning.injEq] at hpc
        exact Or.inl (hpc.2 ▸ hc)
      · rw [if_neg hself] at ht'
        cases hscope : shouldCrawl w l root with
        | false =>
          simp only [hscope, Bool.not_false, if_true, setThread, lookup_set _ hi,
            if_pos, Option.some.injEq] at ht'
          subst ht'
          simp only [PC.scanning.injEq] at hpc
          exact Or.inl (hpc.2 ▸ hc)
        | true =>
          simp only [hscope, Bool.not_true, Bool.false_eq_true, if_false] at ht'
          split at ht'
          · simp only [setThread, lookup_set _ hi, if_pos, Option.some.injEq] at ht'
            subst ht'
            simp only [PC.scanning.injEq] at hpc
            rw [← hpc.2, List.mem_append, List.mem_singleton] at hc
            rcases hc with hc | hc
            · exact Or.inl hc
            · exact Or.inr (hc ▸ hscope)
          · simp only [setThread, lookup_set _ hi, if_pos, Option.some.injEq] at ht'
            subst ht'
            simp only [PC.scanning.injEq] at hpc
            exact Or.inl (hpc.2 ▸ hc)
  · intro group' sched' u hu
    obtain ⟨j, v, hv, hl⟩ := fetched_links w root group' sched' (initial root)
      (by intro u hu; simp [initial] at hu) u hu
    rcases hthreads group' sched' j v hv with ⟨_, _, hroot⟩ | ⟨_, _, hs⟩
    · exact Or.inl (hl ▸ hroot)
    · exact Or.inr (hl ▸ hs)

/-- The tree that `Crawl` returns for the site with one link, and the crawl of
the site whose root page links to another host: the link is recorded in
`pageLinks`, no goroutine is started for it, and it is not fetched. -/
theorem crawl_nodes_in_scope_witness :
    Crawl (miniWorld siteOneLink allowAll) "http://h/"
        [0, 0, 0, 0, 0, 1, 1, 1, 1, 1] =
      some (some (.mk (some ["http://h/p"]) "http://h/"
        (some [.mk (some []) "http://h/p" (some [])]))) ∧
    (∀ n ∈ Node.subtrees (.mk (some ["http://h/p"]) "http://h/"
        (some [.mk (some []) "http://h/p" (some [])])),
      n.Link = "http://h/" ∨
        shouldCrawl (miniWorld siteOneLink allowAll) n.Link "http://h/" = true) ∧
    Crawl (miniWorld siteOffHost allowAll) "http://h/"
        [0, 0, 0, 0, 0, 0, 1, 1, 1, 1, 1] =
      some (some (.mk (some ["http://other/x", "http://h/p"]) "http://h/"
        (some [.mk (some []) "http://h/p" (some [])]))) ∧
    shouldCrawl (miniWorld siteOffHost allowAll) "http://other/x" "http://h/" =
      false ∧
    (crawlState (miniWorld siteOffHost allowAll) "http://h/" allowAll
        [0, 0, 0, 0, 0, 0, 1, 1, 1, 1, 1]).fetched = ["http://h/", "http://h/p"] ∧
    (crawlState (miniWorld siteOffHost allowAll) "http://h/" allowAll
        [0, 0, 0, 0, 0, 0, 1, 1, 1, 1, 1]).threads.map (fun t => t.link) =
      ["http://h/", "http://h/p"] ∧
    (∀ (group : String → Bool) (sched' : List Nat),
      ∀ u ∈ (crawlState (miniWorld siteOffHost allowAll) "http://h/" group
          sched').fetched,
        u = "http://h/" ∨
          shouldCrawl (miniWorld siteOffHost allowAll) u "http://h/" = true) :=
  ⟨by rfl, (crawl_nodes_in_scope (miniWorld siteOneLink allowAll) "http://h/"
    [0, 0, 0, 0, 0, 1, 1, 1, 1, 1] _ (by rfl)).2.1, by rfl, by rfl, by decide,
    by decide,
    (crawl_nodes_in_scope (miniWorld siteOffHost allowAll) "http://h/"
      [0, 0, 0, 0, 0, 0, 1, 1, 1, 1, 1] _ (by rfl)).2.2.2.2.2.2.2⟩

/-! ## Self-loops -/

/-- C5. In the tree that `Crawl` returns, and among the nodes of the threads in
every state of a crawl, no node has its own location among its `pageLinks`, and
no child of a node has the location of the node; a link that
`cleanURL` resolves to the URL of the page itself adds neither an entry to
`pageLinks` nor an element to `children`, and the href `#frag` is cut to the
empty string. -/
theorem no_self_loop (w : World) (root : String) (sched : List Nat)
    (tree : Node) (h : Crawl w root sched = some (some tree)) :
    (∀ n ∈ tree.subtrees,
      n.Link ∉ rangeOver n.pageLinks ∧
      ∀ c ∈ rangeOver n.child, c.Link ≠ n.Link) ∧
    (∀ (group : String → Bool) (sched' : List Nat) (i : Nat) (t : Thread),
      (crawlState w root group sched').threads[i]? = some t →
      t.link ∉ t.pageLinks ∧
      ∀ j ∈ t.child, ∀ u, (crawlState w root group sched').threads[j]? = some u →
        u.link ≠ t.link) ∧
    (∀ (s : State) (i : Nat) (t : Thread) (link : String)
        (links children : List String),
      cleanURL w link t.link = .ok t.link →
      visitLink w root s i t link links children =
        setThread s i { t with pc := .scanning links children }) ∧
    stripFragment "#frag" = "" := by
  obtain ⟨group, hg⟩ := Crawl_tree w root sched tree h
  obtain ⟨_, t0, h0, _, hl0, rfl⟩ := crawlWith_tree w root group sched tree hg
  have hinv := inv_crawlState w root group sched
  generalize (crawlState w root group sched).threads = threads at *
  refine ⟨?_, ?_, ?_, by decide⟩
  · intro n hn
    obtain ⟨fuel', j, u, hu, rfl, _⟩ :=
      mem_subtrees_toNode w root threads hinv _ 0 t0 h0 n hn
    obtain ⟨cs, hcs, hchild⟩ := toNode_of_thread threads fuel' j u hu
    rw [hcs]
    simp only [Node.Link, Node.pageLinks, Node.child, rangeOver]
    refine ⟨(hinv.shape.loc j u hu).2.1, ?_⟩
    intro c hc
    obtain ⟨fuel'', k, hk, rfl⟩ := hchild c hc
    obtain ⟨_, v, hv, _, hne, _⟩ := child_valid w root threads hinv j u hu k hk
    obtain ⟨cs', hcs', _⟩ := toNode_of_thread threads fuel'' k v hv
    rw [hcs']
    exact hne
  · intro group' sched' i t hi
    have hinv' := inv_crawlState w root group' sched'
    refine ⟨(hinv'.shape.loc i t hi).2.1, ?_⟩
    intro j hj u hu
    obtain ⟨_, v, hv, _, hne, _⟩ := child_valid w root _ hinv' i t hi j hj
    rw [hu] at hv
    cases hv
    exact hne
  · intro s i t link links children hclean
    simp [visitLink, hclean]

/-- The crawl of the site whose root page links to itself by `#frag`: the
tree is the root node alone, without `pageLinks`. -/
theorem no_self_loop_witness :
    Crawl (miniWorld siteFragment allowAll) "http://h/" [0, 0, 0, 0, 0] =
      some (some (.mk (some []) "http://h/" (some []))) ∧
    cleanURL (miniWorld siteFragment allowAll) (stripFragment "#frag") "http://h/" =
      .ok "http://h/" ∧
    ∀ n ∈ Node.subtrees (.mk (some []) "http://h/" (some [])),
      n.Link ∉ rangeOver n.pageLinks ∧
      ∀ c ∈ rangeOver n.child, c.Link ≠ n.Link :=
  ⟨by rfl, by rfl, (no_self_loop (miniWorld siteFragment allowAll) "http://h/"
    [0, 0, 0, 0, 0] _ (by rfl)).1⟩

/-! ## A failed fetch -/

theorem visitFetch_failed (w : World) (group : String → Bool) (s : State)
    (i : Nat) (t : Thread) (h : fetchOK w t.link = false) :
    (visitFetch w group s i t).threads =
      s.threads.set i { t with pc := .done .failed } ∧
    (visitFetch w group s i t).visited = mapSet s.visited t.link ∧
    ∃ err, (visitFetch w group s i t).errs =
      (if group t.link then s.errs
        else s.errs ++ ["visiting " ++ t.link ++ " violates robots.txt"]) ++ [err] := by
  unfold fetchOK at h
  unfold visitFetch
  cases hget : w.httpGet t.link with
  | error err =>
    cases group t.link <;> simp [setThread, sendErr, setVisited]
  | ok resp =>
    rw [hget] at h
    have hst : resp.statusCode ≠ StatusOK := by simpa using h
    cases group t.link <;> simp [setThread, sendErr, setVisited, hst]

theorem crawlState_failed_root (w : World) (root : String)
    (group : String → Bool) (h : fetchOK w root = false) :
    (crawlState w root group [0, 0]).threads =
      [⟨root, none, .done .failed, [], []⟩] := by
  have h1 : step w root group (initial root) 0 =
      ⟨[], [⟨root, none, .checked, [], []⟩], [], []⟩ := by
    simp [step, initial, visitCheck, getVisited, mapHas, setThread]
  simp only [crawlState, run, List.foldl_cons, List.foldl_nil, h1]
  simp only [step, List.getElem?_cons_zero]
  rw [(visitFetch_failed w group _ 0 _ h).1]
  rfl

theorem tree_nodes_fetched (w : World) (root : String) (group : String → Bool)
    (sched : List Nat) (tree : Node)
    (hg : crawlWith w root group sched = some (some tree)) :
    ∀ n ∈ tree.subtrees, fetchOK w n.Link = true := by
  intro n hn
  obtain ⟨_, t0, h0, hpc0, _, rfl⟩ := crawlWith_tree w root group sched tree hg
  have hinv := inv_crawlState w root group sched
  generalize (crawlState w root group sched).threads = threads at *
  obtain ⟨fuel', j, u, hu, rfl, hj⟩ :=
    mem_subtrees_toNode w root threads hinv _ 0 t0 h0 n hn
  obtain ⟨cs, hcs, _⟩ := toNode_of_thread threads fuel' j u hu
  rw [hcs]
  simp only [Node.Link]
  have hpc : u.pc = .done .node := by
    rcases hj with rfl | hj
    · rw [h0] at hu
      cases hu
      exact hpc0
    · exact hj
  have hloc := (hinv.shape.loc j u hu).2.2
  rw [hpc] at hloc
  exact hloc

theorem crawlWith_failed_root (w : World) (root : String) (group : String → Bool)
    (hfail : fetchOK w root = false) :
    (∀ (sched : List Nat) (tree : Node),
      crawlWith w root group sched ≠ some (some tree)) ∧
    crawlWith w root group [0, 0] = some none := by
  constructor
  · intro sched tree hg
    have := tree_nodes_fetched w root group sched tree hg tree (self_mem_subtrees tree)
    obtain ⟨_, t0, h0, _, hl0, rfl⟩ := crawlWith_tree w root group sched tree hg
    obtain ⟨cs, hcs, _⟩ :=
      toNode_of_thread _ (crawlState w root group sched).threads.length 0 t0 h0
    rw [hcs] at this
    simp only [Node.Link, hl0, hfail] at this
    cases this
  · simp only [crawlWith, State.drained, State.result,
      crawlState_failed_root w root group hfail]
    rfl

/-- C1, as the code has it. After a fetch that ends in a transport error or in
a status other than `200`, `visit` has put the URL into the visited map, has
sent an error, and returns `nil`; the tree that `Crawl` returns holds no node
for a URL whose fetch failed; and when the fetch of the root fails, `Crawl`
returns no tree under any schedule and returns `nil` once its goroutine has
taken its two steps. -/
theorem failed_fetch_returns_nil (w : World) (root : String) :
    (∀ (group : String → Bool) (s : State) (i : Nat) (t : Thread),
      fetchOK w t.link = false →
      (visitFetch w group s i t).threads =
        s.threads.set i { t with pc := .done .failed } ∧
      (visitFetch w group s i t).visited = mapSet s.visited t.link ∧
      ∃ err, (visitFetch w group s i t).errs =
        (if group t.link then s.errs
          else s.errs ++ ["visiting " ++ t.link ++ " violates robots.txt"]) ++
            [err]) ∧
    (∀ (sched : List Nat) (tree : Node),
      Crawl w root sched = some (some tree) →
      ∀ n ∈ tree.subtrees, fetchOK w n.Link = true) ∧
    (fetchOK w root = false →
      (∀ (sched : List Nat) (tree : Node),
        Crawl w root sched ≠ some (some tree)) ∧
      Crawl w root [0, 0] = some none) := by
  refine ⟨fun group s i t h => visitFetch_failed w group s i t h, ?_, ?_⟩
  · intro sched tree h
    obtain ⟨group, hg⟩ := Crawl_tree w root sched tree h
    exact tree_nodes_fetched w root group sched tree hg
  · intro hfail
    constructor
    · intro sched tree h
      obtain ⟨group, hg⟩ := Crawl_tree w root sched tree h
      exact (crawlWith_failed_root w root group hfail).1 sched tree hg
    · unfold Crawl
      split
      · rfl
      · split
        · rfl
        · rename_i group _
          exact (crawlWith_failed_root w root group hfail).2

/-- The root of this site answers `500`: its fetch fails, no schedule makes
`Crawl` return a tree, and `Crawl` returns `nil` after the two steps of its
goroutine. -/
theorem failed_fetch_returns_nil_witness :
    fetchOK (miniWorld siteDown allowAll) "http://h/" = false ∧
    ((∀ (sched : List Nat) (tree : Node),
        Crawl (miniWorld siteDown allowAll) "http://h/" sched ≠ some (some tree)) ∧
      Crawl (miniWorld siteDown allowAll) "http://h/" [0, 0] = some none) :=
  ⟨by decide,
   (failed_fetch_returns_nil (miniWorld siteDown allowAll) "http://h/").2.2
     (by decide)⟩

/-- C1, as stated, fails: the root of this site answers `500`, and `Crawl`
returns `nil`, not a node for the root. -/
theorem failed_root_fetch_counterexample :
    fetchOK (miniWorld siteDown allowAll) "http://h/" = false ∧
    Crawl (miniWorld siteDown allowAll) "http://h/" [0, 0] = some none ∧
    ¬ ∃ n, Crawl (miniWorld siteDown allowAll) "http://h/" [0, 0] = some (some n) := by
  refine ⟨by decide, by rfl, ?_⟩
  rintro ⟨n, hn⟩
  have h : Crawl (miniWorld siteDown allowAll) "http://h/" [0, 0] = some none := by rfl
  rw [h] at hn
  cases hn

/-! ## The races on the visited map -/

set_option maxRecDepth 100000 in
/-- C2 fails on the code. The pages `/a` and `/b` both link to `/c`; when the
two goroutines for `/c` both pass the test of line 101 before either reaches
line 111, the tree that `Crawl` returns has two nodes with the location
`http://h/c`. -/
theorem diamond_location_twice :
    (Crawl (miniWorld siteDiamond allowAll) "http://h/"
        [0, 0, 0, 0, 0, 0, 1, 1, 1, 1, 1, 1, 2, 2, 2, 2, 2, 2, 3, 4, 3, 4, 3, 4, 3, 4,
          3, 4]).map
      (fun r => r.map Node.locations) =
      some (some ["http://h/", "http://h/a", "http://h/c", "http://h/b", "http://h/c"]) ∧
    ¬ ["http://h/", "http://h/a", "http://h/c", "http://h/b", "http://h/c"].Nodup := by
  constructor
  · decide
  · decide

set_option maxRecDepth 100000 in
/-- C10 fails on the code. The test of line 101 leaves the visited map as it
is, the insertion comes at line 111 in another locked section, and under the
schedule in which the two goroutines for `/c` both pass the test before either
inserts, `http.Get` is called twice for `http://h/c`. -/
theorem diamond_fetched_twice :
    (∀ (s : State) (i : Nat) (t : Thread),
      (visitCheck s i t).visited = s.visited) ∧
    (crawlState (miniWorld siteDiamond allowAll) "http://h/" allowAll
        [0, 0, 0, 0, 0, 0, 1, 1, 1, 1, 1, 1, 2, 2, 2, 2, 2, 2, 3, 4, 3, 4, 3, 4, 3, 4,
          3, 4]).fetched =
      ["http://h/", "http://h/a", "http://h/b", "http://h/c", "http://h/c"] ∧
    (crawlState (miniWorld siteDiamond allowAll) "http://h/" allowAll
        [0, 0, 0, 0, 0, 0, 1, 1, 1, 1, 1, 1, 2, 2, 2, 2, 2, 2, 3, 4, 3, 4, 3, 4, 3, 4,
          3, 4]).drained =
      true := by
  refine ⟨?_, by decide, by decide⟩
  intro s i t
  simp only [visitCheck, setThread]
  split <;> rfl

/-! ## Duplicates in `pageLinks` -/

/-- C6 fails on the code. The root page names `/p` by the hrefs `/p` and
`http://h/p`; `filterLinks` keeps both, `cleanURL` resolves both to
`http://h/p`, and the `pageLinks` of the root node holds that URL twice. -/
theorem two_names_pageLinks_twice :
    filterLinks ((miniWorld siteTwoNames allowAll).rangeOrder 0)
      ["/p", "http://h/p"] = ["/p", "http://h/p"] ∧
    cleanURL (miniWorld siteTwoNames allowAll) "/p" "http://h/" = .ok "http://h/p" ∧
    cleanURL (miniWorld siteTwoNames allowAll) "http://h/p" "http://h/" =
      .ok "http://h/p" ∧
    (Crawl (miniWorld siteTwoNames allowAll) "http://h/"
        [0, 0, 0, 0, 0, 0, 1, 1, 1, 1, 1, 2]).map (fun r => r.map Node.pageLinks) =
      some (some (some ["http://h/p", "http://h/p"])) ∧
    ¬ ["http://h/p", "http://h/p"].Nodup := by
  refine ⟨by decide, by rfl, by rfl, by decide, by decide⟩

/-! ## The children of a fetched page -/

theorem run_mem (w : World) (root : String) (group : String → Bool)
    (states : List State)
    (hclosed : ∀ s ∈ states, ∀ i, step w root group s i ∈ states) :
    ∀ (sched : List Nat) (s : State), s ∈ states →
      run w root group s sched ∈ states := by
  intro sched
  induction sched with
  | nil => intro s hs; exact hs
  | cons i sched ih => intro s hs; exact ih _ (hclosed s hs i)

theorem filterLinks_nil (w : World) (i : Nat) :
    filterLinks (w.rangeOrder i) [] = [] :=
  List.perm_nil.mp (filterLinks_perm w i [])

theorem filterLinks_singleton (w : World) (i : Nat) (href : String) :
    filterLinks (w.rangeOrder i) [href] = [stripFragment href] := by
  have h := filterLinks_perm w i [href]
  have hs : linkSet ([href].map stripFragment) = [stripFragment href] := by
    simp [linkSet, mapSet]
  rw [hs] at h
  exact List.perm_singleton.mp h

theorem noLink_closed (w : World) (root : String) (resp : Response)
    (hget : w.httpGet root = .ok resp) (hst : resp.statusCode = StatusOK)
    (hlinks : parseLinks w resp.body = []) :
    ∀ s ∈ noLinkStates root, ∀ i, step w root allowAll s i ∈ noLinkStates root := by
  intro s hs i
  simp only [noLinkStates, List.mem_cons, List.mem_singleton, List.not_mem_nil,
    or_false] at hs
  rcases hs with rfl | rfl | rfl | rfl | rfl <;> cases i <;>
    simp [step, noLinkStates, visitCheck, visitFetch, visitSpawn, appendRead,
      getVisited, setVisited, sendErr, setThread, mapHas, mapSet, allowAll, hget,
      hst, hlinks, filterLinks_nil]

theorem oneLink_closed (w : World) (root href next : String)
    (resp resp' : Response)
    (hget : w.httpGet root = .ok resp) (hst : resp.statusCode = StatusOK)
    (hlinks : parseLinks w resp.body = [href])
    (hclean : cleanURL w (stripFragment href) root = .ok next)
    (hne : next ≠ root) (hscope : shouldCrawl w next root = true)
    (hget' : w.httpGet next = .ok resp') (hst' : resp'.statusCode = StatusOK)
    (hlinks' : parseLinks w resp'.body = []) :
    ∀ s ∈ oneLinkStates root (stripFragment href) next, ∀ i,
      step w root allowAll s i ∈ oneLinkStates root (stripFragment href) next := by
  intro s hs i
  have hne' : root ≠ next := fun e => hne e.symm
  simp only [oneLinkStates, oneLinkGrid, List.mem_cons, List.mem_singleton,
    List.not_mem_nil, or_false, List.mem_append, List.cons_append,
    List.nil_append] at hs
  rcases hs with rfl | rfl | rfl | rfl | rfl | rfl | rfl | rfl | rfl | rfl | rfl |
    rfl | rfl | rfl | rfl | rfl <;> rcases i with _ | _ | i <;>
    simp [step, oneLinkStates, oneLinkGrid, visitCheck, visitFetch, visitLink,
      visitSpawn, appendRead, appendWrite, spawn, getVisited, setVisited, sendErr, setThread, mapHas,
      mapSet, allowAll, hget, hst, hlinks, hclean, hne, hne', hscope, hget', hst',
      hlinks', filterLinks_nil, filterLinks_singleton]

theorem noLink_result (root : String) :
    ∀ s ∈ noLinkStates root, ∀ r,
      (if s.drained = true then some s.result else none) = some r →
        r = some (NewNode root) := by
  intro s hs r
  simp only [noLinkStates, List.mem_cons, List.mem_singleton, List.not_mem_nil,
    or_false] at hs
  rcases hs with rfl | rfl | rfl | rfl | rfl <;>
    simp [State.drained, State.result, PC.isDone, toNode, NewNode]
  exact fun h => h.symm

theorem oneLink_result (root href next : String) :
    ∀ s ∈ oneLinkStates root href next, ∀ r,
      (if s.drained = true then some s.result else none) = some r →
        r = some (.mk (some [next]) root (some [NewNode next])) := by
  intro s hs r
  simp only [oneLinkStates, oneLinkGrid, List.mem_cons, List.mem_singleton,
    List.not_mem_nil, or_false, List.mem_append, List.cons_append,
    List.nil_append] at hs
  rcases hs with rfl | rfl | rfl | rfl | rfl | rfl | rfl | rfl | rfl | rfl | rfl |
    rfl | rfl | rfl | rfl | rfl <;>
    simp [State.drained, State.result, PC.isDone, toNode, NewNode]
  exact fun h => h.symm

theorem noLink_crawl (w : World) (root : String) (group : String → Bool)
    (resp : Response)
    (hget : w.httpGet root = .ok resp) (hst : resp.statusCode = StatusOK)
    (hlinks : parseLinks w resp.body = []) :
    (∀ (sched : List Nat) (r : Option Node),
      crawlWith w root group sched = some r → r = some (NewNode root)) ∧
    crawlWith w root group [0, 0, 0, 0] = some (some (NewNode root)) := by
  constructor
  · intro sched r h
    rw [crawlWith_robots w root group allowAll] at h
    have hm := run_mem w root allowAll (noLinkStates root)
      (noLink_closed w root resp hget hst hlinks) sched (initial root)
      (by simp [noLinkStates, initial])
    exact noLink_result root _ hm r h
  · rw [crawlWith_robots w root group allowAll]
    simp [crawlWith, crawlState, run, initial, State.drained, State.result,
      PC.isDone, toNode, NewNode, step, visitCheck, visitFetch, visitSpawn,
      appendRead, getVisited, setVisited, sendErr, setThread, mapHas, mapSet, allowAll, hget,
      hst, hlinks, filterLinks_nil]

theorem oneLink_crawl (w : World) (root : String) (group : String → Bool)
    (href next : String) (resp resp' : Response)
    (hget : w.httpGet root = .ok resp) (hst : resp.statusCode = StatusOK)
    (hlinks : parseLinks w resp.body = [href])
    (hclean : cleanURL w (stripFragment href) root = .ok next)
    (hne : next ≠ root) (hscope : shouldCrawl w next root = true)
    (hget' : w.httpGet next = .ok resp') (hst' : resp'.statusCode = StatusOK)
    (hlinks' : parseLinks w resp'.body = []) :
    (∀ (sched : List Nat) (r : Option Node),
      crawlWith w root group sched = some r →
        r = some (.mk (some [next]) root (some [NewNode next]))) ∧
    crawlWith w root group [0, 0, 0, 0, 0, 1, 1, 1, 1, 1] =
      some (some (.mk (some [next]) root (some [NewNode next]))) := by
  have hne' : root ≠ next := fun e => hne e.symm
  constructor
  · intro sched r h
    rw [crawlWith_robots w root group allowAll] at h
    have hm := run_mem w root allowAll (oneLinkStates root (stripFragment href) next)
      (oneLink_closed w root href next resp resp' hget hst hlinks hclean hne hscope
        hget' hst' hlinks') sched (initial root)
      (by simp [oneLinkStates, initial])
    exact oneLink_result root _ next _ hm r h
  · rw [crawlWith_robots w root group allowAll]
    have e1 : step w root allowAll (initial root) 0 =
        ⟨[], [⟨root, none, .checked, [], []⟩], [], []⟩ := by
      simp [step, initial, visitCheck, getVisited, setThread, mapHas]
    have e2 : step w root allowAll ⟨[], [⟨root, none, .checked, [], []⟩], [], []⟩ 0 =
        ⟨[root], [⟨root, none, .scanning [stripFragment href] [], [], []⟩], [],
          [root]⟩ := by
      simp [step, visitFetch, setVisited, setThread, mapSet, allowAll, hget, hst,
        hlinks, filterLinks_singleton]
    have e3 : step w root allowAll
        ⟨[root], [⟨root, none, .scanning [stripFragment href] [], [], []⟩], [],
          [root]⟩ 0 =
        ⟨[root], [⟨root, none, .scanning [] [next], [next], []⟩], [], [root]⟩ := by
      simp [step, visitLink, setThread, mapHas, hclean, hne, hne', hscope]
    have e4 : step w root allowAll
        ⟨[root], [⟨root, none, .scanning [] [next], [next], []⟩], [], [root]⟩ 0 =
        ⟨[root], [⟨root, none, .returned, [next], []⟩,
          ⟨next, some 0, .start, [], []⟩], [], [root]⟩ := by
      simp [step, visitSpawn, setThread, spawn]
    have e5 : step w root allowAll
        ⟨[root], [⟨root, none, .returned, [next], []⟩,
          ⟨next, some 0, .start, [], []⟩], [], [root]⟩ 0 =
        ⟨[root], [⟨root, none, .done .node, [next], []⟩,
          ⟨next, some 0, .start, [], []⟩], [], [root]⟩ := by
      simp [step, appendRead, setThread]
    have e6 : step w root allowAll
        ⟨[root], [⟨root, none, .done .node, [next], []⟩,
          ⟨next, some 0, .start, [], []⟩], [], [root]⟩ 1 =
        ⟨[root], [⟨root, none, .done .node, [next], []⟩,
          ⟨next, some 0, .checked, [], []⟩], [], [root]⟩ := by
      simp [step, visitCheck, getVisited, setThread, mapHas, hne, hne']
    have e7 : step w root allowAll
        ⟨[root], [⟨root, none, .done .node, [next], []⟩,
          ⟨next, some 0, .checked, [], []⟩], [], [root]⟩ 1 =
        ⟨[root, next], [⟨root, none, .done .node, [next], []⟩,
          ⟨next, some 0, .scanning [] [], [], []⟩], [], [root, next]⟩ := by
      simp [step, visitFetch, setVisited, setThread, mapSet, allowAll, hget', hst',
        hlinks', filterLinks_nil, hne, hne']
    have e8 : step w root allowAll
        ⟨[root, next], [⟨root, none, .done .node, [next], []⟩,
          ⟨next, some 0, .scanning [] [], [], []⟩], [], [root, next]⟩ 1 =
        ⟨[root, next], [⟨root, none, .done .node, [next], []⟩,
          ⟨next, some 0, .returned, [], []⟩], [], [root, next]⟩ := by
      simp [step, visitSpawn, setThread]
    have e9 : step w root allowAll
        ⟨[root, next], [⟨root, none, .done .node, [next], []⟩,
          ⟨next, some 0, .returned, [], []⟩], [], [root, next]⟩ 1 =
        ⟨[root, next], [⟨root, none, .done .node, [next], []⟩,
          ⟨next, some 0, .appending [], [], []⟩], [], [root, next]⟩ := by
      simp [step, appendRead, setThread]
    have e10 : step w root allowAll
        ⟨[root, next], [⟨root, none, .done .node, [next], []⟩,
          ⟨next, some 0, .appending [], [], []⟩], [], [root, next]⟩ 1 =
        ⟨[root, next], [⟨root, none, .done .node, [next], [1]⟩,
          ⟨next, some 0, .done .node, [], []⟩], [], [root, next]⟩ := by
      simp [step, appendWrite, setThread]
    have hrun : crawlState w root allowAll [0, 0, 0, 0, 0, 1, 1, 1, 1, 1] =
        ⟨[root, next], [⟨root, none, .done .node, [next], [1]⟩,
          ⟨next, some 0, .done .node, [], []⟩], [], [root, next]⟩ := by
      unfold crawlState run
      rw [List.foldl_cons, e1, List.foldl_cons, e2, List.foldl_cons, e3,
        List.foldl_cons, e4, List.foldl_cons, e5, List.foldl_cons, e6,
        List.foldl_cons, e7, List.foldl_cons, e8, List.foldl_cons, e9,
        List.foldl_cons, e10, List.foldl_nil]
    unfold crawlWith
    rw [hrun]
    simp [State.drained, State.result, PC.isDone, toNode, NewNode]

/-- The two small crawls on concrete sites: the site without links and the
site with one link give their tree under every schedule. -/
theorem small_crawls (sched : List Nat) (r : Option Node) :
    (crawlWith (miniWorld siteNoLink allowAll) "http://h/" allowAll sched = some r →
      r = some (NewNode "http://h/")) ∧
    (crawlWith (miniWorld siteOneLink allowAll) "http://h/" allowAll sched = some r →
      r = some (.mk (some ["http://h/p"]) "http://h/"
        (some [NewNode "http://h/p"]))) :=
  ⟨(noLink_crawl (miniWorld siteNoLink allowAll) "http://h/" allowAll (page [])
      (by rfl) (by rfl) (by rfl)).1 sched r,
   (oneLink_crawl (miniWorld siteOneLink allowAll) "http://h/" allowAll
      "http://h/p" "http://h/p" (page ["http://h/p"]) (page [])
      (by rfl) (by rfl) (by rfl) (by rfl) (by decide) (by rfl) (by rfl) (by rfl)
      (by rfl)).1 sched r⟩

/-- In every state of a crawl, the goroutines started for a node got in-scope
entries of its `pageLinks`, one goroutine for one entry, and the field `child`
of the node holds, without repetition, only goroutines started for this node
whose `visit` returned a node, after a fetch that succeeded. -/
theorem children_sound (w : World) (root : String) (group : String → Bool)
    (sched : List Nat) (i : Nat) (t : Thread)
    (hi : (crawlState w root group sched).threads[i]? = some t) :
    (childLinks (crawlState w root group sched).threads i).Sublist
      (inScope w root t.pageLinks) ∧
    t.child.Nodup ∧
    ∀ j ∈ t.child, ∃ u, (crawlState w root group sched).threads[j]? = some u ∧
      u.parent = some i ∧ u.pc = .done .node ∧ fetchOK w u.link = true := by
  have hinv := inv_crawlState w root group sched
  refine ⟨(hinv.shape.tasks i t hi).1, hinv.nodup i t hi, ?_⟩
  intro j hj
  obtain ⟨u, hu, hpar, hpc⟩ := hinv.child i t j hi hj
  have hloc := (hinv.shape.loc j u hu).2.2
  rw [hpc] at hloc
  exact ⟨u, hu, hpar, hpc, hloc⟩

set_option maxRecDepth 100000 in
/-- C4 fails on the code. The root page links to `/a` and `/b`; both goroutines
find their link not visited, fetch it and get a node from `visit`. Line 167 is
outside every locked section: when both goroutines read `cursor.child` before
either writes it, the second write drops the node of the first, and the root
node that `Crawl` returns has the child `/b` only. -/
theorem two_links_child_lost :
    (crawlState (miniWorld siteTwoLinks allowAll) "http://h/" allowAll
        [0, 0, 0, 0, 0, 0, 1, 1, 1, 2, 2, 2, 1, 2, 1, 2]).threads =
      [⟨"http://h/", none, .done .node, ["http://h/a", "http://h/b"], [2]⟩,
       ⟨"http://h/a", some 0, .done .node, [], []⟩,
       ⟨"http://h/b", some 0, .done .node, [], []⟩] ∧
    Crawl (miniWorld siteTwoLinks allowAll) "http://h/"
        [0, 0, 0, 0, 0, 0, 1, 1, 1, 2, 2, 2, 1, 2, 1, 2] =
      some (some (.mk (some ["http://h/a", "http://h/b"]) "http://h/"
        (some [NewNode "http://h/b"]))) ∧
    shouldCrawl (miniWorld siteTwoLinks allowAll) "http://h/a" "http://h/" = true ∧
    fetchOK (miniWorld siteTwoLinks allowAll) "http://h/a" = true := by
  refine ⟨by decide, by rfl, by rfl, by rfl⟩

end Sprinter
